import Mathlib

/-!
Verification of the envready command-execution / package-installation core.

This file gives a shallow embedding, in Lean 4, of the pure logic of
`src/executor/shell.ts` (`Shell.stream`, `Shell.session`, `writeChunk`,
stall-timer handling) and `src/executor/package.ts` (`Package.detect`,
`Package.download`'s filename-resolution cascade, `contentTypeToExt`,
`detectFromMagic`, `Package.install`'s cleanup), and proves the spec's
claims about them.

Strings are modelled as `List Char`; JavaScript string primitives
(`endsWith`, `split`, `slice(-n)`, `toLowerCase` on ASCII, template
interpolation of numbers, global regex replacement) are each given a
faithful executable Lean counterpart next to the definition that uses it.
-/

namespace Envready

/-- JS `String.prototype.toLowerCase` restricted to ASCII, which is the
only range the detector's suffix patterns and the claims exercise:
uppercase ASCII letters map to lowercase, everything else is unchanged. -/
def lowerChar (c : Char) : Char :=
  if c.toNat ≥ 65 ∧ c.toNat ≤ 90 then Char.ofNat (c.toNat + 32) else c

/-- Lowercase an entire string (JS `filename.toLowerCase()`). -/
def lowerL (s : List Char) : List Char := s.map lowerChar

/-- JS `s.endsWith(p)`: the last `p.length` characters of `s` equal `p`. -/
def endsB (s p : List Char) : Bool := s.drop (s.length - p.length) == p

/-- JS `s.startsWith(p)` / `p` being a leading block of `s`. -/
def startsB (s p : List Char) : Bool := s.take p.length == p

/-- JS `s.slice(-n)`: the trailing `n` characters (whole string when shorter). -/
def lastN (n : Nat) (s : List Char) : List Char := s.drop (s.length - n)

/-- Split a string at every occurrence of the separator character,
like JS `s.split(sep)` for a one-character separator: `""` splits to
`[""]`, and separators at the ends produce empty fragments. -/
def splitCh (sep : Char) : List Char → List (List Char)
  | [] => [[]]
  | c :: t =>
    if c = sep then [] :: splitCh sep t
    else
      match splitCh sep t with
      | [] => [[c]]
      | l :: ls => (c :: l) :: ls

/-- Join fragments with a separator character (inverse of `splitCh` on
newline-free fragments); models the accumulated terminal writes that put
`"\n"` between consecutive fragments. -/
def joinCh (sep : Char) : List (List Char) → List Char
  | [] => []
  | [l] => l
  | l :: ls => l ++ sep :: joinCh sep ls

/-- Decimal representation of a natural number, as produced by JS template
interpolation of a number (`` `${code}` ``). -/
def natRepr (n : Nat) : List Char :=
  if h : n < 10 then [Char.ofNat (48 + n)]
  else natRepr (n / 10) ++ [Char.ofNat (48 + n % 10)]
  decreasing_by exact Nat.div_lt_self (by omega) (by omega)

/-! ## Format detection (`package.ts` lines 27–77) -/

/-- The closed `Format` union of `package.ts`. -/
inductive Format where
  | dmg | pkg | zip | targz | tarbz2 | tarxz | deb | rpm
  | appimage | exe | msi | snap | flatpak | binary | unknown
deriving DecidableEq, Repr

/-- `Package.detect` (package.ts lines 61–77): lowercase the filename and
test the suffix patterns in source order. -/
def detect (filename : List Char) : Format :=
  let lower := lowerL filename
  if endsB lower ".dmg".toList then .dmg
  else if endsB lower ".pkg".toList || endsB lower ".mpkg".toList then .pkg
  else if endsB lower ".zip".toList then .zip
  else if endsB lower ".tar.gz".toList || endsB lower ".tgz".toList then .targz
  else if endsB lower ".tar.bz2".toList || endsB lower ".tbz2".toList then .tarbz2
  else if endsB lower ".tar.xz".toList || endsB lower ".txz".toList then .tarxz
  else if endsB lower ".deb".toList then .deb
  else if endsB lower ".rpm".toList then .rpm
  else if endsB lower ".appimage".toList then .appimage
  else if endsB lower ".exe".toList then .exe
  else if endsB lower ".msi".toList then .msi
  else if endsB lower ".snap".toList then .snap
  else if endsB lower ".flatpak".toList || endsB lower ".flatpakref".toList then .flatpak
  else .unknown

/-- JS `s.includes(p)` (substring test), used by `detectFromMagic`. -/
def containsSub (s p : List Char) : Bool :=
  match s with
  | [] => startsB [] p
  | _ :: t => startsB s p || containsSub t p

/-- `detectFromMagic` (package.ts lines 179–196) reduced to its pure core:
classify the MIME string printed by `file --brief --mime-type`.  The
surrounding process call and the `catch`-to-`"unknown"` wrapper are not
modelled; this is the substring dispatch itself. -/
def detectFromMagic (mime : List Char) : Format :=
  if containsSub mime "apple-diskimage".toList || containsSub mime "x-diskcopy".toList then .dmg
  else if containsSub mime "zip".toList then .zip
  else if containsSub mime "gzip".toList || containsSub mime "x-tar".toList then .targz
  else if containsSub mime "bzip2".toList then .tarbz2
  else if containsSub mime "x-xz".toList then .tarxz
  else if containsSub mime "debian".toList then .deb
  else if containsSub mime "rpm".toList then .rpm
  else if containsSub mime "x-msi".toList then .msi
  else if containsSub mime "x-executable".toList || containsSub mime "x-pie-executable".toList then .binary
  else .unknown

/-! ## Download filename resolution (`package.ts` lines 85–177) -/

/-- JS `\s` whitespace class (ASCII part). -/
def isWS (c : Char) : Bool :=
  c = ' ' ∨ c = '\t' ∨ c = '\n' ∨ c = '\r' ∨ c = '\x0b' ∨ c = '\x0c'

/-- JS `decoded.replace(/\s+/g, "-")`: every maximal whitespace run
becomes a single `'-'`. -/
def replaceWS : List Char → List Char
  | [] => []
  | c :: t =>
    if isWS c then '-' :: replaceWS (t.dropWhile isWS)
    else c :: replaceWS t
  termination_by s => s.length
  decreasing_by
    · exact Nat.lt_succ_of_le (List.dropWhile_sublist isWS (l := t)).length_le
    · simp

/-- Trim ASCII whitespace from both ends (JS `String.prototype.trim`). -/
def trimWS (s : List Char) : List Char :=
  ((s.dropWhile isWS).reverse.dropWhile isWS).reverse

/-- `contentTypeToExt` (package.ts lines 156–177): strip any `;` parameter,
trim and lowercase, then look the media type up in the extension table.
The JS `map[type] || null` turns both a missing key and the empty-string
entry for `application/octet-stream` into `null`, modelled as `none`. -/
def contentTypeToExt (ct : List Char) : Option (List Char) :=
  let type := lowerL (trimWS ((splitCh ';' ct).headD []))
  let table : List (List Char × List Char) :=
    [ ("application/x-apple-diskimage".toList, ".dmg".toList)
    , ("application/x-diskcopy".toList, ".dmg".toList)
    , ("application/vnd.apple.installer+xml".toList, ".pkg".toList)
    , ("application/zip".toList, ".zip".toList)
    , ("application/x-zip-compressed".toList, ".zip".toList)
    , ("application/gzip".toList, ".tar.gz".toList)
    , ("application/x-gzip".toList, ".tar.gz".toList)
    , ("application/x-tar".toList, ".tar.gz".toList)
    , ("application/x-bzip2".toList, ".tar.bz2".toList)
    , ("application/x-xz".toList, ".tar.xz".toList)
    , ("application/vnd.debian.binary-package".toList, ".deb".toList)
    , ("application/x-rpm".toList, ".rpm".toList)
    , ("application/x-msi".toList, ".msi".toList)
    , ("application/x-msdos-program".toList, ".exe".toList)
    , ("application/x-executable".toList, ".AppImage".toList)
    , ("application/octet-stream".toList, [])
    ]
  match table.lookup type with
  | some e => if e = [] then none else some e
  | none => none

/-- `finalUrl.split("/").pop()?.split("?")[0] || ""` (package.ts line 111):
last path segment of the final redirect target, query string stripped. -/
def urlFname (finalUrl : List Char) : List Char :=
  (splitCh '?' ((splitCh '/' finalUrl).getLastD [])).headD []

/-- The filename-resolution cascade of `Package.download`
(package.ts lines 91–131), with the HTTP header probe abstracted to its
extracted components: `disp` is the (percent-decoded) filename from a
`Content-Disposition` header when one matched, `finalUrl` the value of the
last `Location` header (`""` when there was none), `ct` the `Content-Type`
value (`""` when absent).  Each strategy runs only while `detect` on the
current name is still `"unknown"`, exactly as the source's guards do. -/
def resolveFname (fname : List Char) (disp : Option (List Char))
    (finalUrl : List Char) (ct : List Char) : List Char :=
  if detect fname ≠ .unknown then fname
  else
    -- Strategy 1: Content-Disposition filename
    let f1 := match disp with
      | some d => if detect d ≠ .unknown then replaceWS d else fname
      | none => fname
    -- Strategy 2: effective URL after redirects
    let f2 :=
      if detect f1 = .unknown then
        let uf := urlFname finalUrl
        if detect uf ≠ .unknown then uf else f1
      else f1
    -- Strategy 3: Content-Type
    if detect f2 = .unknown then
      match contentTypeToExt ct with
      | some ext => f2 ++ ext
      | none => f2
    else f2

/-! ## Live-echo chunk writer (`shell.ts` lines 360–384) -/

/-- `segments.filter((s) => s).pop() || ""` (shell.ts line 378): the last
non-empty carriage-return segment of a line, i.e. what a terminal would
show after each `\r` returned the cursor to the start of the line. -/
def visibleSeg (line : List Char) : List Char :=
  (((splitCh '\r' line).filter (· ≠ [])).getLastD [])

/-- The body of `writeChunk`'s per-line loop (shell.ts lines 369–382):
empty lines write nothing, a line containing `\r` writes
`"\r" + prefix + visible` when something is visible, any other line is
written with the prefix. -/
def renderLine (pre line : List Char) : List Char :=
  if line = [] then []
  else if line.contains '\r' then
    (if visibleSeg line = [] then [] else '\r' :: (pre ++ visibleSeg line))
  else pre ++ line

/-- `writeChunk` (shell.ts lines 360–384): the concatenation of every
`process.stderr.write` the function performs.  Without a prefix the raw
text passes through; with one, the text is split at `"\n"`, a real newline
is written between consecutive lines, and each line goes through the loop
body above. -/
def writeChunk (text pre : List Char) : List Char :=
  if pre = [] then text
  else
    (splitCh '\n' text).enum.foldl
      (fun out il => out ++ (if 0 < il.1 then ['\n'] else []) ++ renderLine pre il.2) []

/-- The live-echo rule as the spec states it: honor real newlines, and
within a line collapse carriage-return segments to the last visible one,
written once with the prefix. -/
def writeChunkSpec (text pre : List Char) : List Char :=
  joinCh '\n' ((splitCh '\n' text).map (renderLine pre))

/-! ## Stream close handling (`shell.ts` lines 237–258) -/

/-- Cause tag distinguishing a timeout kill from a cancellation kill
(shell.ts line 247). -/
inductive KillCause where
  | timeout | aborted
deriving DecidableEq, Repr

/-- The four ways a `Shell.stream` call can settle when the child's
`close` event fires. -/
inductive StreamOutcome where
  /-- The promise resolves with the captured output (shell.ts line 256). -/
  | resolved (stdout stderr : List Char) (code : Option Int)
  /-- Rejection with `StallError` (shell.ts line 242). -/
  | stallError (cmd : List Char) (elapsed stallCount : Nat)
  /-- Rejection with `Command killed (aborted|timeout)` (shell.ts line 247). -/
  | killedError (cause : KillCause) (cmd : List Char)
  /-- Rejection with `Command failed (exit code)` plus the stderr tail
  (shell.ts line 252). -/
  | exitError (code : Option Int) (stderrTail : List Char) (cmd : List Char)
deriving DecidableEq, Repr

/-- The `close` handler of `Shell.stream` (shell.ts lines 237–257).
`code` is Node's exit code, `none` standing for JS `null` (child ended by
signal); both `null` and any non-zero number satisfy `code !== 0`.
`stalled`/`killed` are the flags the stall, timeout and abort paths set
before killing, and `aborted` is `o.signal?.aborted`. -/
def closeHandler (stalled killed aborted : Bool) (code : Option Int)
    (stdout stderr cmd : List Char) (elapsed stallCount : Nat) : StreamOutcome :=
  if stalled then .stallError cmd elapsed stallCount
  else if killed ∧ code ≠ some 0 then
    .killedError (if aborted then .aborted else .timeout) cmd
  else if code ≠ some 0 then .exitError code (lastN 500 stderr) cmd
  else .resolved stdout stderr code

/-! ## Stall detection timing (`shell.ts` lines 128–176, 205–229) -/

/-- First stall-timer expiry for a run, as a discrete-event reading of
`resetStallTimer`: the timer is armed at process start (shell.ts line 176)
with deadline `last + T`, re-armed at every output chunk (lines 209, 222),
and cleared on close (line 239).  `outs` are the chunk arrival times in
order, `tExit` the moment the process exits; the timer fires iff a full
`T` elapses strictly before the next chunk or the exit. -/
def firstFireAux (T : Nat) : Nat → List Nat → Nat → Option Nat
  | last, [], tExit => if last + T < tExit then some (last + T) else none
  | last, t :: rest, tExit =>
    if last + T < t then some (last + T) else firstFireAux T t rest tExit

/-- `stallTimeout <= 0` disables stall detection entirely
(shell.ts line 140). -/
def stallFire (T : Nat) (outs : List Nat) (tExit : Nat) : Option Nat :=
  if T = 0 then none else firstFireAux T 0 outs tExit

/-- The consecutive idle intervals of a run: from start (time 0) and from
each output chunk to the next event (next chunk, or process exit). -/
def idleGaps (outs : List Nat) (tExit : Nat) : List (Nat × Nat) :=
  List.zip (0 :: outs) (outs ++ [tExit])

/-- `StallInfo` (shell.ts lines 13–22, constructed at lines 144–149). -/
structure StallInfo where
  cmd : List Char
  elapsed : Nat
  stallCount : Nat
  lastOutput : List Char
deriving DecidableEq, Repr

/-- The argument of the first `onStall` invocation: `stallCount` was `0`
and is pre-incremented (shell.ts line 143), `elapsed` is the fire time
minus the start time, `lastOutput` joins the tracked window. -/
def firstStallInfo (cmd : List Char) (T : Nat) (outs : List Nat) (tExit : Nat)
    (window : List (List Char)) : Option StallInfo :=
  (stallFire T outs tExit).map (fun f => ⟨cmd, f, 0 + 1, joinCh '\n' window⟩)

/-- `trackLine` (shell.ts lines 130–137): split a chunk at newlines, push
each non-blank trimmed line, and drop the oldest entry once more than 10
are held. -/
def trackChunk (acc : List (List Char)) (text : List Char) : List (List Char) :=
  (splitCh '\n' text).foldl
    (fun a line =>
      if trimWS line ≠ [] then
        (if (a ++ [trimWS line]).length > 10 then (a ++ [trimWS line]).tail
         else a ++ [trimWS line])
      else a) acc

/-! ## Install cleanup (`package.ts` lines 202–235, 499–507) -/

/-- The shared temp download directory (package.ts line 83). -/
def downloadDir (home : List Char) : List Char :=
  home ++ "/Downloads/.envready-tmp".toList

/-- A flat view of the file system: the set of regular-file paths, plus
whether the temp download directory itself exists.  Paths in a file
system are unique, so removing a file is `filter`. -/
structure FSState where
  files : List (List Char)
  tmpDirExists : Bool
deriving DecidableEq, Repr

/-- `fs.existsSync(filepath)` for a regular file. -/
def existsFile (fs : FSState) (p : List Char) : Bool := fs.files.contains p

/-- `fs.unlinkSync(filepath)`. -/
def unlinkFile (fs : FSState) (p : List Char) : FSState :=
  { fs with files := fs.files.filter (· ≠ p) }

/-- `fs.readdirSync(DOWNLOAD_DIR)`: the entries below the temp dir. -/
def tmpEntries (home : List Char) (fs : FSState) : List (List Char) :=
  fs.files.filter (fun p => startsB p (downloadDir home ++ ['/']))

/-- `cleanup` (package.ts lines 499–507): delete the artifact if present,
then remove the temp download directory when it exists and has become
empty. -/
def cleanup (home fp : List Char) (fs : FSState) : FSState :=
  let fs1 := if existsFile fs fp then unlinkFile fs fp else fs
  if fs1.tmpDirExists ∧ (tmpEntries home fs1).length = 0 then
    { fs1 with tmpDirExists := false }
  else fs1

/-- The file-system effect of the tail of `Package.install`
(package.ts lines 229–231): `if (!o.keep && result.ok) cleanup(file.path)`.
The format handlers themselves only run external commands, so the
router's own effect on the modelled state is exactly this conditional
cleanup. -/
def installCleanupEffect (keep ok : Bool) (home fp : List Char) (fs : FSState) : FSState :=
  if ¬ keep ∧ ok then cleanup home fp fs else fs

/-! ## Multi-command sessions (`shell.ts` lines 276–321) -/

/-- `display.replace(/'/g, "'\\''")` (shell.ts line 294): every single
quote becomes the four characters quote, backslash, quote, quote. -/
def escQ : List Char → List Char
  | [] => []
  | c :: t =>
    if c = '\'' then '\'' :: '\\' :: '\'' :: '\'' :: escQ t else c :: escQ t

/-- `cmd.length > 80 ? cmd.slice(0, 77) + "..." : cmd` (shell.ts line 293). -/
def display (cmd : List Char) : List Char :=
  if cmd.length > 80 then cmd.take 77 ++ "...".toList else cmd

/-- The step-marker `echo` line the generated script emits before command
`i` of `n` (shell.ts line 296). -/
def stepMarkerLine (i n : Nat) (cmd : List Char) : List Char :=
  "echo '  ▶ [".toList ++ natRepr i ++ "/".toList ++ natRepr n ++ "] ".toList
    ++ escQ (display cmd) ++ ['\'']

/-- The lines of the generated wrapper script (shell.ts lines 286–298):
`set -e`, a step-counter initialisation, then for each command a counter
assignment, a step-marker echo, and the command itself. -/
def scriptLines (cmds : List (List Char)) : List (List Char) :=
  ["set -e".toList, "_envready_step=0".toList] ++
  cmds.enum.flatMap (fun ic =>
    [ "_envready_step=".toList ++ natRepr (ic.1 + 1)
    , stepMarkerLine (ic.1 + 1) cmds.length ic.2
    , ic.2 ])

/-- `lines.join("\n")` (shell.ts line 300). -/
def buildScript (cmds : List (List Char)) : List Char :=
  joinCh '\n' (scriptLines cmds)

/-- What one issued command does when the shell reaches it: its text, its
exit code, and the bytes it writes to stdout and stderr. -/
structure CmdBehavior where
  text : List Char
  code : Nat
  out : List Char
  err : List Char

/-- The shell running the generated script under `set -e`: commands run
in order, each preceded by its echoed step marker; the first non-zero
exit stops the script and becomes its exit code.  Returns the texts of
the commands that ran, the script's exit code, and the accumulated
stdout / stderr. -/
def execSteps (n : Nat) : Nat → List CmdBehavior → List (List Char) × Nat × List Char × List Char
  | _, [] => ([], 0, [], [])
  | i, c :: rest =>
    let marker := "  ▶ [".toList ++ natRepr i ++ "/".toList ++ natRepr n ++ "] ".toList
      ++ display c.text ++ ['\n']
    if c.code ≠ 0 then ([c.text], c.code, marker ++ c.out, c.err)
    else
      let r := execSteps n (i + 1) rest
      (c.text :: r.1, r.2.1, marker ++ c.out ++ r.2.2.1, c.err ++ r.2.2.2)

/-- The rejection message of `Shell.stream` for a non-zero exit
(shell.ts line 252): `` `Command failed (exit ${code}): ${cmd}\n${stderr.slice(-500)}` ``. -/
def mkFailMsg (cmd : List Char) (code : Nat) (stderr : List Char) : List Char :=
  "Command failed (exit ".toList ++ natRepr code ++ "): ".toList ++ cmd
    ++ '\n' :: lastN 500 stderr

/-! ### The error-cleaning regexes (`shell.ts` lines 303–318)

Each JS regex is modelled by a matcher `List Char → Option Nat` returning
how many characters a match starting at the head of the input consumes
(every matcher consumes at least one character), together with scanners
reproducing `String.prototype.replace`: left-to-right, and for a `g`
regex a single pass that resumes after each match. -/

/-- Matcher for a literal pattern such as `set -e\n`. -/
def matchLitTok (lit s : List Char) : Option Nat :=
  if startsB s lit then some lit.length else none

/-- The literal regex `/set -e\n/g` (shell.ts line 313). -/
def mSetE (s : List Char) : Option Nat := matchLitTok "set -e\n".toList s

/-- The regex `/_envready_step=\d+\n/g` (shell.ts line 314): the literal
prefix, one or more digits (greedy, which is exact here because the
character after the digit run must be `\n`), then a newline. -/
def matchStep (s : List Char) : Option Nat :=
  if startsB s "_envready_step=".toList then
    let rest := s.drop 15
    let ds := rest.takeWhile Char.isDigit
    if ds = [] then none
    else if (rest.drop ds.length).head? = some '\n' then some (15 + ds.length + 1)
    else none
  else none

/-- The lazy part of `/echo '.*?'\n/g`: starting after `echo '`, find the
earliest position holding a `'` directly followed by `\n`; the lazy `.*?`
consumes only non-newline characters, so an intervening newline makes the
whole match fail.  Returns the characters consumed through that `\n`. -/
def lazyQuoteNL : List Char → Option Nat
  | [] => none
  | c :: rest =>
    if c = '\'' ∧ rest.head? = some '\n' then some 2
    else if c = '\n' then none
    else (lazyQuoteNL rest).map (· + 1)

/-- The regex `/echo '.*?'\n/g` (shell.ts line 315). -/
def matchEcho (s : List Char) : Option Nat :=
  if startsB s "echo '".toList then (lazyQuoteNL (s.drop 6)).map (6 + ·)
  else none

/-- The lazy part of the first regex (shell.ts line 309):
`[\s\S]*?\n(?=\S)` — find the earliest `\n` whose successor exists and is
not whitespace; `[\s\S]` also consumes newlines, so the search continues
past a `\n` that fails the lookahead.  Consumes through the matching
`\n`; the lookahead character is not consumed. -/
def lazyNLWS : List Char → Option Nat
  | [] => none
  | c :: rest =>
    if c = '\n' ∧ (match rest.head? with | some d => !(isWS d) | none => false) = true
    then some 1
    else (lazyNLWS rest).map (· + 1)

/-- The non-global regex
`/Command failed \(exit \d+\): set -e[\s\S]*?\n(?=\S)/` together with its
replacement callback (shell.ts lines 309–312): on success, yields the
replacement `` `Command failed (exit ${digits}): ` `` (the callback's
inner `/exit (\d+)/` recovers exactly the digits the match consumed) and
the number of characters consumed. -/
def matchHead (s : List Char) : Option (List Char × Nat) :=
  if startsB s "Command failed (exit ".toList then
    let s1 := s.drop 21
    let ds := s1.takeWhile Char.isDigit
    if ds = [] then none
    else if startsB (s1.drop ds.length) "): set -e".toList then
      match lazyNLWS (s1.drop (ds.length + 9)) with
      | some k =>
        some ("Command failed (exit ".toList ++ ds ++ "): ".toList,
              21 + ds.length + 9 + k)
      | none => none
    else none
  else none

/-- `String.prototype.replace` with a non-`g` regex: replace the leftmost
match only. -/
def replaceFirstFn (m : List Char → Option (List Char × Nat)) : List Char → List Char
  | [] =>
    match m [] with
    | some (repl, _) => repl
    | none => []
  | c :: t =>
    match m (c :: t) with
    | some (repl, k) => repl ++ (c :: t).drop (max k 1)
    | none => c :: replaceFirstFn m t
  termination_by s => s.length
  decreasing_by simp

/-- `String.prototype.replace` with a `g` regex and empty replacement:
one left-to-right pass, resuming after each match.  All matchers above
consume at least one character, so `max k 1` only makes termination
evident and never changes the result. -/
def scanRemove (m : List Char → Option Nat) : List Char → List Char
  | [] => []
  | c :: t =>
    match m (c :: t) with
    | some k => scanRemove m ((c :: t).drop (max k 1))
    | none => c :: scanRemove m t
  termination_by s => s.length
  decreasing_by
    · simp only [List.length_drop, List.length_cons]
      omega
    · simp

/-- The full cleaning chain of `Shell.session`'s catch handler
(shell.ts lines 308–316), in source order. -/
def cleanSessionMsg (msg : List Char) : List Char :=
  scanRemove matchEcho
    (scanRemove matchStep
      (scanRemove mSetE
        (replaceFirstFn matchHead msg)))

/-! ### The session runner itself -/

/-- How a `Shell.stream`-style call settles in the session model. -/
inductive SessionOutcome where
  | ok (stdout stderr : List Char) (code : Nat)
  | fail (message : List Char)
deriving DecidableEq, Repr

/-- `Shell.stream` on the plain-failure path, parameterised by the shell's
behaviour `runShell` (exit code, stdout, stderr of one spawned shell
invocation on the given command text): exit 0 resolves with the captured
output, non-zero rejects with the `Command failed` message
(shell.ts lines 251–256). -/
def streamRun (runShell : List Char → Nat × List Char × List Char)
    (cmd : List Char) : SessionOutcome :=
  let r := runShell cmd
  if r.1 = 0 then .ok r.2.1 r.2.2 0 else .fail (mkFailMsg cmd r.1 r.2.2)

/-- `Shell.session` (shell.ts lines 276–321): an empty list resolves
immediately, a single command delegates to `stream` unchanged, and two or
more commands run the generated wrapper script through `stream`, cleaning
the message of a rejection. -/
def sessionRun (runShell : List Char → Nat × List Char × List Char) :
    List (List Char) → SessionOutcome
  | [] => .ok [] [] 0
  | [c] => streamRun runShell c
  | cmds =>
    match streamRun runShell (buildScript cmds) with
    | .ok o e c => .ok o e c
    | .fail msg => .fail (cleanSessionMsg msg)

/-- Number of shell processes `Shell.session` spawns: none for an empty
command list (shell.ts line 277 resolves without calling `stream`), one
otherwise (both remaining paths call `stream` exactly once, which spawns
once). -/
def sessionSpawnCount : List (List Char) → Nat
  | [] => 0
  | _ => 1

/-- The spawned shell executing the generated multi-command script: its
observable result is the fail-fast step semantics `execSteps` of the
underlying command behaviours. -/
def scriptShell (cs : List CmdBehavior) : List Char → Nat × List Char × List Char :=
  fun _ => ((execSteps cs.length 1 cs).2.1,
            (execSteps cs.length 1 cs).2.2.1,
            (execSteps cs.length 1 cs).2.2.2)

/-- `Shell.session` applied to commands whose behaviours are `cs`. -/
def sessionOnBehaviors (cs : List CmdBehavior) : SessionOutcome :=
  sessionRun (scriptShell cs) (cs.map (·.text))

/-! ## Basic lemmas about the string primitives -/

def wEnvA : CmdBehavior := ⟨"mkdir -p work".toList, 0, [], []⟩

def wEnvB : CmdBehavior := ⟨"apt-get install -y cowsay".toList, 100, [],
  "E: Unable to locate package cowsay".toList⟩

def wEnvC : CmdBehavior := ⟨"cowsay done".toList, 0, "ok".toList, []⟩

theorem endsB_iff {s p : List Char} : endsB s p = true ↔ ∃ a, s = a ++ p := by
  constructor
  · intro h
    simp only [endsB, beq_iff_eq] at h
    refine ⟨s.take (s.length - p.length), ?_⟩
    have h2 := List.take_append_drop (s.length - p.length) s
    rw [h] at h2
    exact h2.symm
  · rintro ⟨a, rfl⟩
    simp only [endsB, beq_iff_eq, List.length_append]
    rw [Nat.add_sub_cancel, List.drop_left]

theorem endsB_app (a p : List Char) : endsB (a ++ p) p = true :=
  endsB_iff.mpr ⟨a, rfl⟩

theorem endsB_of_le {s p q : List Char} (hp : endsB s p = true)
    (hq : endsB s q = true) (hle : p.length ≤ q.length) : endsB q p = true := by
  obtain ⟨a, rfl⟩ := endsB_iff.mp hp
  obtain ⟨b, hb⟩ := endsB_iff.mp hq
  have hlen : b.length ≤ a.length := by
    have := congrArg List.length hb
    simp only [List.length_append] at this
    omega
  have htake : a.take b.length = b := by
    have := congrArg (List.take b.length) hb
    rwa [List.take_append_of_le_length hlen, List.take_left] at this
  have ha : b ++ a.drop b.length = a := by
    have h3 := List.take_append_drop b.length a
    rwa [htake] at h3
  refine endsB_iff.mpr ⟨a.drop b.length, ?_⟩
  have hcalc : b ++ (a.drop b.length ++ p) = b ++ q := by
    calc b ++ (a.drop b.length ++ p) = (b ++ a.drop b.length) ++ p := by
          rw [List.append_assoc]
      _ = a ++ p := by rw [ha]
      _ = b ++ q := hb
  exact (List.append_cancel_left hcalc).symm

theorem startsB_iff {s p : List Char} : startsB s p = true ↔ s.take p.length = p := by
  simp [startsB]

theorem startsB_app (p r : List Char) : startsB (p ++ r) p = true := by
  simp [startsB_iff, List.take_left]

theorem startsB_mem {v R : List Char} (h : startsB v R = true) {c : Char}
    (hc : c ∈ R) : c ∈ v := by
  rw [startsB_iff] at h
  exact List.take_subset _ _ (h ▸ hc)

theorem startsB_head {b q : List Char} (h : startsB b q = true) (hq : q ≠ []) :
    b.head? = q.head? := by
  rw [startsB_iff] at h
  cases q with
  | nil => exact absurd rfl hq
  | cons x xs =>
    cases b with
    | nil => simp at h
    | cons y ys =>
      simp only [List.length_cons, List.take_succ_cons, List.cons.injEq] at h
      simp [h.1]

/-- Decompose `startsB (v ++ b) R`: either the pattern fits inside `v`,
or `v` is a proper leading block of the pattern and `b` carries the rest. -/
theorem startsB_append_cases {R v b : List Char} (h : startsB (v ++ b) R = true) :
    (R.length ≤ v.length ∧ startsB v R = true) ∨
    (v.length < R.length ∧ v = R.take v.length ∧
       startsB b (R.drop v.length) = true) := by
  rw [startsB_iff] at h
  by_cases hlen : R.length ≤ v.length
  · left
    refine ⟨hlen, startsB_iff.mpr ?_⟩
    rw [List.take_append_of_le_length hlen] at h
    exact h
  · right
    push_neg at hlen
    refine ⟨hlen, ?_, startsB_iff.mpr ?_⟩
    · have := congrArg (List.take v.length) h
      rw [List.take_take, Nat.min_eq_left (Nat.le_of_lt hlen),
        List.take_append_of_le_length (Nat.le_refl _), List.take_length] at this
      exact this
    · have := congrArg (List.drop v.length) h
      rw [List.drop_take, List.drop_left] at this
      rw [List.length_drop]
      exact this

/-- `Char.ofNat` round-trips on code points below the surrogate range. -/
theorem toNat_ofNatChar {n : Nat} (h : n < 0xd800) : (Char.ofNat n).toNat = n := by
  have hv : Nat.isValidChar n := Or.inl h
  simp only [Char.ofNat, hv, dite_true, Char.ofNatAux, Char.toNat]
  rfl

theorem lowerChar_idem (c : Char) : lowerChar (lowerChar c) = lowerChar c := by
  by_cases h : c.toNat ≥ 65 ∧ c.toNat ≤ 90
  · have h1 : lowerChar c = Char.ofNat (c.toNat + 32) := by
      unfold lowerChar
      rw [if_pos h]
    have ht : (Char.ofNat (c.toNat + 32)).toNat = c.toNat + 32 :=
      toNat_ofNatChar (by omega)
    rw [h1]
    unfold lowerChar
    rw [if_neg (by rw [ht]; omega)]
  · have h1 : lowerChar c = c := by
      unfold lowerChar
      rw [if_neg h]
    rw [h1, h1]

theorem lowerL_idem (s : List Char) : lowerL (lowerL s) = lowerL s := by
  simp only [lowerL, List.map_map]
  exact List.map_congr_left (fun c _ => lowerChar_idem c)

/-! ## Format-detector lemmas and claims C6 / C10 -/

theorem detect_lowerL (f : List Char) : detect (lowerL f) = detect f := by
  unfold detect
  rw [lowerL_idem]

theorem endsB_false_of_targz {lower p : List Char}
    (h : endsB lower ".tar.gz".toList = true) (hlen : p.length ≤ 7)
    (hne : endsB ".tar.gz".toList p = false) : endsB lower p = false := by
  cases hp : endsB lower p with
  | true =>
    have := endsB_of_le hp h (by simpa using hlen)
    rw [this] at hne
    exact absurd hne (by simp)
  | false => rfl

theorem detect_of_targz {f : List Char}
    (h : endsB (lowerL f) ".tar.gz".toList = true) : detect f = .targz := by
  unfold detect
  have h1 := endsB_false_of_targz (p := ".dmg".toList) h (by decide) (by decide)
  have h2 := endsB_false_of_targz (p := ".pkg".toList) h (by decide) (by decide)
  have h3 := endsB_false_of_targz (p := ".mpkg".toList) h (by decide) (by decide)
  have h4 := endsB_false_of_targz (p := ".zip".toList) h (by decide) (by decide)
  simp_all

/-- C6: `detect` is case-insensitive — it agrees with itself on the
lowercased filename, classifies `APP.DMG` and `app.dmg` both as `dmg`,
and any filename ending (in any casing) in `.tar.gz` gets the compound
format `tar.gz`, never a single-suffix classification. -/
theorem detect_case_insensitive :
    (∀ f : List Char, detect f = detect (lowerL f))
    ∧ detect "APP.DMG".toList = Format.dmg
    ∧ detect "app.dmg".toList = Format.dmg
    ∧ (∀ f : List Char,
        endsB (lowerL f) ".tar.gz".toList = true → detect f = .targz) :=
  ⟨fun f => (detect_lowerL f).symm, by decide, by decide,
   fun _ h => detect_of_targz h⟩

/-- Witness for C6's hypothesis-bearing conjunct at a concrete mixed-case
filename. -/
theorem detect_case_insensitive_witness :
    endsB (lowerL "Release.TAR.GZ".toList) ".tar.gz".toList = true
    ∧ detect "Release.TAR.GZ".toList = Format.targz :=
  ⟨by decide, detect_case_insensitive.2.2.2 "Release.TAR.GZ".toList (by decide)⟩

theorem ite_ne_binary {c : Prop} [Decidable c] {a b : Format}
    (ha : a ≠ .binary) (hb : b ≠ .binary) : (if c then a else b) ≠ .binary := by
  split
  · exact ha
  · exact hb

/-- C10: filename-based detection can never produce `binary`; that format
only comes from the post-download MIME probe `detectFromMagic`. -/
theorem detect_never_binary :
    (∀ f : List Char, detect f ≠ Format.binary)
    ∧ detectFromMagic "application/x-executable".toList = Format.binary := by
  constructor
  · intro f
    simp only [detect]
    iterate 13 refine ite_ne_binary (by decide) ?_
    decide
  · decide

/-! ## Download filename cascade: claim C4 -/

/-- C4: the resolution cascade of `download` applies its strategies in
order, each only while `detect` still answers `unknown`: a recognizable
initial filename short-circuits everything; a recognizable
Content-Disposition filename wins next; then the final redirect target's
path segment; and finally the Content-Type mapping — in particular a URL
with no recognizable path extension served as `application/gzip` resolves
to format `tar.gz`. -/
theorem download_cascade (fname : List Char) (disp : Option (List Char))
    (finalUrl ct : List Char) :
    (detect fname ≠ .unknown → resolveFname fname disp finalUrl ct = fname)
    ∧ (∀ d, detect fname = .unknown → disp = some d → detect d ≠ .unknown →
        detect (replaceWS d) ≠ .unknown →
        resolveFname fname disp finalUrl ct = replaceWS d)
    ∧ (detect fname = .unknown → (∀ d, disp = some d → detect d = .unknown) →
        detect (urlFname finalUrl) ≠ .unknown →
        resolveFname fname disp finalUrl ct = urlFname finalUrl)
    ∧ (detect fname = .unknown → (∀ d, disp = some d → detect d = .unknown) →
        detect (urlFname finalUrl) = .unknown →
        resolveFname fname disp finalUrl "application/gzip".toList
          = fname ++ ".tar.gz".toList
        ∧ detect (resolveFname fname disp finalUrl "application/gzip".toList)
          = .targz) := by
  have hct : contentTypeToExt "application/gzip".toList = some ".tar.gz".toList := by
    decide
  refine ⟨fun h => ?_, fun d h0 hd h1 h2 => ?_, fun h0 hnone h2 => ?_,
    fun h0 hnone h2 => ?_⟩
  · simp [resolveFname, h]
  · subst hd
    simp [resolveFname, h0, h1, h2]
  · cases disp with
    | none => simp [resolveFname, h0, h2]
    | some d =>
      have hd := hnone d rfl
      simp [resolveFname, h0, hd, h2]
  · have htg : detect (fname ++ ".tar.gz".toList) = .targz := by
      refine detect_of_targz ?_
      have hsplit : lowerL (fname ++ ".tar.gz".toList)
          = lowerL fname ++ ".tar.gz".toList := by
        simp only [lowerL, List.map_append]
        congr 1
      rw [hsplit]
      exact endsB_app _ _
    have hres : resolveFname fname disp finalUrl "application/gzip".toList
        = fname ++ ".tar.gz".toList := by
      cases disp with
      | none =>
        simp only [resolveFname]
        simp [h0, h2, hct]
        rfl
      | some d =>
        have hd := hnone d rfl
        simp only [resolveFname]
        simp [h0, h2, hd, hct]
        rfl
    exact ⟨hres, hres ▸ htg⟩

/-- Witness for C4 at concrete inputs: an extensionless GitHub-style URL
served as `application/gzip`. -/
theorem download_cascade_witness :
    resolveFname "v2.1.0".toList none [] "application/gzip".toList
      = "v2.1.0.tar.gz".toList
    ∧ detect (resolveFname "v2.1.0".toList none [] "application/gzip".toList)
      = .targz :=
  (download_cascade "v2.1.0".toList none [] "application/gzip".toList).2.2.2
    (by decide) (fun d h => by cases h) (by decide)

/-! ## Live echo: claim C5 -/

theorem joinCh_two (sep : Char) (x y : List Char) (ys : List (List Char)) :
    joinCh sep (x :: y :: ys) = x ++ sep :: joinCh sep (y :: ys) := rfl

theorem joinCh_cons (sep : Char) (x : List Char) (xs : List (List Char)) :
    joinCh sep (x :: xs) = x ++ (xs.map (fun l => sep :: l)).flatten := by
  induction xs generalizing x with
  | nil => simp [joinCh]
  | cons y ys ih =>
    rw [joinCh_two, ih y]
    simp

theorem fold_join_aux (f : List Char → List Char) (ls : List (List Char)) :
    ∀ (k : Nat) (acc : List Char), 0 < k →
    (ls.enumFrom k).foldl
      (fun out il => out ++ (if 0 < il.1 then ['\n'] else []) ++ f il.2) acc
    = acc ++ (ls.map (fun l => '\n' :: f l)).flatten := by
  induction ls with
  | nil => intro k acc _; simp
  | cons l ls ih =>
    intro k acc hk
    simp only [List.enumFrom, List.foldl_cons, List.map_cons, List.flatten_cons]
    rw [if_pos hk, ih (k + 1) _ (Nat.succ_pos k)]
    simp

/-- C5: the live-echo chunk writer passes bytes through unmodified when no
prefix is configured, and with a prefix it follows the claimed rule: the
chunk splits at real newlines and each line is rendered by the
carriage-return-collapse rule (only the last visible `\r` segment is
written, once, with the prefix). -/
theorem writeChunk_rule (text pre : List Char) :
    writeChunk text [] = text
    ∧ (pre ≠ [] → writeChunk text pre = writeChunkSpec text pre) := by
  constructor
  · simp [writeChunk]
  · intro hpre
    rw [writeChunk, if_neg hpre, writeChunkSpec]
    cases hls : splitCh '\n' text with
    | nil => simp [joinCh]
    | cons l ls =>
      simp only [List.map_cons]
      rw [joinCh_cons]
      simp only [List.enum, List.enumFrom, List.foldl_cons, List.map_map]
      rw [if_neg (by omega)]
      simp only [List.append_nil, List.nil_append]
      rw [fold_join_aux (renderLine pre) ls 1 (renderLine pre l) Nat.one_pos]
      rfl

/-- Witness for C5's prefixed conjunct on a progress-bar chunk. -/
theorem writeChunk_rule_witness :
    writeChunk "10%\r50%\r100%\ndone".toList "  ".toList
      = writeChunkSpec "10%\r50%\r100%\ndone".toList "  ".toList
    ∧ writeChunk "10%\r50%\r100%\ndone".toList "  ".toList
      = "\r  100%\n  done".toList :=
  ⟨(writeChunk_rule "10%\r50%\r100%\ndone".toList "  ".toList).2 (by decide),
   by decide⟩

/-! ## Session delegation and empty session: claims C7 / C9 -/

/-- C7: a one-command session is exactly a `stream` call on that command —
no wrapper script, no step markers, no message rewriting. -/
theorem session_single_delegates
    (runShell : List Char → Nat × List Char × List Char) (c : List Char) :
    sessionRun runShell [c] = streamRun runShell c := rfl

/-- C9: an empty session resolves immediately with empty output and exit
code 0 and spawns no shell process. -/
theorem session_empty (runShell : List Char → Nat × List Char × List Char) :
    sessionRun runShell [] = .ok [] [] 0 ∧ sessionSpawnCount [] = 0 :=
  ⟨rfl, rfl⟩

/-! ## Install cleanup: claim C8 -/

theorem existsFile_iff {fs : FSState} {p : List Char} :
    existsFile fs p = true ↔ p ∈ fs.files := by
  simp [existsFile, List.elem_iff]

theorem unlink_noop {fp : List Char} {fs : FSState}
    (hex : existsFile fs fp = false) : (unlinkFile fs fp).files = fs.files := by
  have hnm : fp ∉ fs.files := by
    intro hm
    rw [← existsFile_iff] at hm
    rw [hm] at hex
    cases hex
  simp only [unlinkFile]
  exact List.filter_eq_self.mpr (fun a ha => by
    simp only [ne_eq, decide_eq_true_eq]
    rintro rfl
    exact hnm ha)

theorem cleanup_files_eq (home fp : List Char) (fs : FSState) :
    (cleanup home fp fs).files = (unlinkFile fs fp).files := by
  by_cases hex : existsFile fs fp = true
  · simp only [cleanup, hex, if_true]
    split <;> rfl
  · rw [Bool.not_eq_true] at hex
    simp only [cleanup, hex, Bool.false_eq_true, if_false]
    rw [unlink_noop hex]
    split <;> rfl

theorem tmpCore (home : List Char) (g : FSState) :
    (if g.tmpDirExists = true ∧ (tmpEntries home g).length = 0 then
        { files := g.files, tmpDirExists := false }
      else g).tmpDirExists
      = (g.tmpDirExists && !(tmpEntries home g).isEmpty) := by
  split
  · next h =>
    have hemp : (tmpEntries home g).isEmpty = true := by
      rw [List.isEmpty_iff_length_eq_zero]
      exact h.2
    simp [hemp]
  · next h =>
    cases htmp : g.tmpDirExists with
    | false => simp
    | true =>
      have hl : (tmpEntries home g).isEmpty = false := by
        rw [Bool.eq_false_iff]
        intro hcon
        rw [List.isEmpty_iff_length_eq_zero] at hcon
        exact h ⟨htmp, hcon⟩
      simp [hl]

theorem cleanup_tmp_eq (home fp : List Char) (fs : FSState) :
    (cleanup home fp fs).tmpDirExists
      = (fs.tmpDirExists && !(tmpEntries home (unlinkFile fs fp)).isEmpty) := by
  by_cases hex : existsFile fs fp = true
  · simp only [cleanup, hex, if_true]
    exact tmpCore home (unlinkFile fs fp)
  · rw [Bool.not_eq_true] at hex
    simp only [cleanup, hex, Bool.false_eq_true, if_false]
    have hent : tmpEntries home (unlinkFile fs fp) = tmpEntries home fs := by
      simp [tmpEntries, unlink_noop hex]
    rw [hent]
    exact tmpCore home fs

/-- C8: on a successful install without `keep`, the artifact is deleted
and the shared temp download directory is removed exactly when it has
become empty; with `keep` set or on an unsuccessful outcome the file
system is untouched, so an existing artifact stays in place. -/
theorem install_cleanup (fs : FSState) (home fp : List Char) (keep ok : Bool) :
    (keep = false → ok = true →
      existsFile (installCleanupEffect keep ok home fp fs) fp = false
      ∧ (installCleanupEffect keep ok home fp fs).tmpDirExists
          = (fs.tmpDirExists && !(tmpEntries home (unlinkFile fs fp)).isEmpty))
    ∧ ((keep = true ∨ ok = false) →
        installCleanupEffect keep ok home fp fs = fs
        ∧ (existsFile fs fp = true →
            existsFile (installCleanupEffect keep ok home fp fs) fp = true)) := by
  have heffect : installCleanupEffect false true home fp fs = cleanup home fp fs := by
    simp [installCleanupEffect]
  constructor
  · rintro rfl rfl
    rw [heffect]
    constructor
    · rw [Bool.eq_false_iff]
      intro hcon
      rw [existsFile_iff, cleanup_files_eq] at hcon
      simp [unlinkFile, List.mem_filter] at hcon
    · exact cleanup_tmp_eq home fp fs
  · intro h
    have hsame : installCleanupEffect keep ok home fp fs = fs := by
      simp only [installCleanupEffect]
      rcases h with rfl | rfl
      · simp
      · simp
    refine ⟨hsame, fun hex => ?_⟩
    rw [hsame]
    exact hex

/-- Witness for C8 at a concrete two-file state: the artifact disappears
and the temp dir survives because a second download is still in it; and a
kept install leaves everything alone. -/
theorem install_cleanup_witness :
    existsFile
      (installCleanupEffect false true "/h".toList
        "/h/Downloads/.envready-tmp/a.deb".toList
        ⟨["/h/Downloads/.envready-tmp/a.deb".toList,
          "/h/Downloads/.envready-tmp/b.dmg".toList], true⟩)
      "/h/Downloads/.envready-tmp/a.deb".toList = false
    ∧ (installCleanupEffect false true "/h".toList
        "/h/Downloads/.envready-tmp/a.deb".toList
        ⟨["/h/Downloads/.envready-tmp/a.deb".toList,
          "/h/Downloads/.envready-tmp/b.dmg".toList], true⟩).tmpDirExists
      = true :=
  ⟨((install_cleanup
      ⟨["/h/Downloads/.envready-tmp/a.deb".toList,
        "/h/Downloads/.envready-tmp/b.dmg".toList], true⟩
      "/h".toList "/h/Downloads/.envready-tmp/a.deb".toList false true).1
      rfl rfl).1,
   by
    have h := ((install_cleanup
      ⟨["/h/Downloads/.envready-tmp/a.deb".toList,
        "/h/Downloads/.envready-tmp/b.dmg".toList], true⟩
      "/h".toList "/h/Downloads/.envready-tmp/a.deb".toList false true).1
      rfl rfl).2
    rw [h]
    decide⟩

/-! ## Stream close handling: claim C1 -/

/-- C1 as stated is false on the code: the close handler only rejects a
killed run when the exit code is non-zero (`if (killed && code !== 0)`,
shell.ts line 246), so a child that is sent SIGTERM by the timeout or
cancellation path but still exits 0 during the grace window resolves as a
successful result with exit code 0 even though `killed` is `true`. -/
theorem killed_resolves_counterexample :
    ¬ (∀ (stalled killed aborted : Bool) (code : Option Int)
        (so se cmd : List Char) (elapsed stallCount : Nat),
        killed = true →
        ∀ o e : List Char,
          closeHandler stalled killed aborted code so se cmd elapsed stallCount
            ≠ .resolved o e (some 0)) := by
  intro h
  exact h false true false (some 0) [] [] "sleep 30".toList 0 0 rfl [] [] rfl

/-- C1 amended: a stall-kill never resolves (it rejects with `StallError`
whatever the exit code); a killed run that did not exit cleanly (exit
status non-zero or `null`) never resolves either, rejecting with the
cause-tagged killed error (aborted vs timeout); and any resolved result
carries exit code 0. -/
theorem killed_never_resolves_unclean (stalled killed aborted : Bool)
    (code : Option Int) (so se cmd : List Char) (elapsed stallCount : Nat) :
    (stalled = true →
      closeHandler stalled killed aborted code so se cmd elapsed stallCount
        = .stallError cmd elapsed stallCount)
    ∧ (stalled = false → killed = true → code ≠ some 0 →
        closeHandler stalled killed aborted code so se cmd elapsed stallCount
          = .killedError (if aborted then .aborted else .timeout) cmd)
    ∧ (∀ o e c,
        closeHandler stalled killed aborted code so se cmd elapsed stallCount
          = .resolved o e c → c = some 0) := by
  refine ⟨fun hs => ?_, fun hs hk hc => ?_, fun o e c hr => ?_⟩
  · simp [closeHandler, hs]
  · subst hs
    subst hk
    simp [closeHandler, hc]
  · by_cases hs : stalled = true
    · simp [closeHandler, hs] at hr
    · rw [Bool.not_eq_true] at hs
      subst hs
      by_cases hc : code = some 0
      · subst hc
        simp [closeHandler] at hr
        exact hr.2.2.symm
      · simp only [closeHandler, Bool.false_eq_true, if_false] at hr
        by_cases hk : killed = true ∧ code ≠ some 0
        · rw [if_pos hk] at hr
          cases hr
        · rw [if_neg hk, if_pos hc] at hr
          cases hr

/-- Witness for the amended C1 at concrete inputs: a stall-kill and an
abort-kill with unclean exits both reject. -/
theorem killed_never_resolves_unclean_witness :
    closeHandler true true false (some 0) [] [] "npm install".toList 130000 2
      = .stallError "npm install".toList 130000 2
    ∧ closeHandler false true true none [] [] "curl -O x".toList 9000 0
      = .killedError .aborted "curl -O x".toList := by
  constructor
  · exact (killed_never_resolves_unclean true true false (some 0) [] []
      "npm install".toList 130000 2).1 rfl
  · have h := (killed_never_resolves_unclean false true true none [] []
      "curl -O x".toList 9000 0).2.1 rfl rfl (by simp)
    rw [h]
    rfl

/-! ## Stall timing: claim C3 -/

theorem firstFireAux_some_of_gap (T : Nat) :
    ∀ (last : Nat) (outs : List Nat) (tExit : Nat),
    (∃ p ∈ List.zip (last :: outs) (outs ++ [tExit]), p.1 + T < p.2) →
    ∃ f, firstFireAux T last outs tExit = some f ∧ ∃ prev, f = prev + T := by
  intro last outs
  induction outs generalizing last with
  | nil =>
    intro tExit hgap
    obtain ⟨p, hp, hlt⟩ := hgap
    simp only [List.nil_append, List.zip_cons_cons, List.zip_nil_right,
      List.mem_singleton] at hp
    subst hp
    exact ⟨last + T, by simp [firstFireAux, hlt], last, rfl⟩
  | cons t rest ih =>
    intro tExit hgap
    by_cases hfirst : last + T < t
    · exact ⟨last + T, by simp [firstFireAux, hfirst], last, rfl⟩
    · obtain ⟨p, hp, hlt⟩ := hgap
      simp only [List.cons_append, List.zip_cons_cons, List.mem_cons] at hp
      rcases hp with rfl | hp
      · exact absurd hlt hfirst
      · have := ih t tExit ⟨p, hp, hlt⟩
        obtain ⟨f, hf, prev, hprev⟩ := this
        refine ⟨f, ?_, prev, hprev⟩
        rw [firstFireAux, if_neg hfirst]
        exact hf

theorem firstFireAux_none_of_no_gap (T : Nat) :
    ∀ (last : Nat) (outs : List Nat) (tExit : Nat),
    (∀ p ∈ List.zip (last :: outs) (outs ++ [tExit]), p.2 ≤ p.1 + T) →
    firstFireAux T last outs tExit = none := by
  intro last outs
  induction outs generalizing last with
  | nil =>
    intro tExit hng
    have h1 : tExit ≤ last + T := hng (last, tExit) (by simp)
    simp only [firstFireAux]
    rw [if_neg (by omega)]
  | cons t rest ih =>
    intro tExit hng
    have hfirst : t ≤ last + T := hng (last, t) (by simp)
    rw [firstFireAux, if_neg (by omega)]
    refine ih t tExit (fun p hp => hng p ?_)
    simp only [List.cons_append, List.zip_cons_cons, List.mem_cons]
    exact Or.inr hp

theorem foldl_inv {α β : Type} (P : α → Prop) (f : α → β → α)
    (hf : ∀ a b, P a → P (f a b)) :
    ∀ (l : List β) (a : α), P a → P (l.foldl f a) := by
  intro l
  induction l with
  | nil => intro a ha; exact ha
  | cons x xs ih => intro a ha; exact ih _ (hf a x ha)

theorem trackChunk_bound :
    ∀ (chunks : List (List Char)), (chunks.foldl trackChunk []).length ≤ 10 := by
  have hstep : ∀ (acc : List (List Char)) (text : List Char),
      acc.length ≤ 10 → (trackChunk acc text).length ≤ 10 := by
    intro acc text hacc
    rw [trackChunk]
    refine foldl_inv (fun a => a.length ≤ 10) _ ?_ _ acc hacc
    intro a line ha
    split
    · split
      · next h2 =>
        simp only [List.length_tail, List.length_append, List.length_singleton]
        omega
      · next h2 =>
        simp only [List.length_append, List.length_singleton] at *
        omega
    · exact ha
  intro chunks
  exact foldl_inv (fun a => a.length ≤ 10) trackChunk hstep chunks [] (by simp)

/-- C3: with a positive stall timeout `T`, an idle interval strictly
longer than is allowed (no output for more than `T` ms counted from start
or from the previous chunk) makes the stall timer fire, and the first
decision-callback invocation carries `stallCount = 1` and
`elapsed ≥ T`, with the trailing-output window bounded at 10 lines;
conversely a run whose every idle interval (including the final one
before an exit-0 close) stays within `T` never fires the timer, so the
decision callback is never invoked. -/
theorem stall_timing :
    (∀ (T : Nat) (outs : List Nat) (tExit : Nat) (cmd : List Char)
       (win : List (List Char)),
      0 < T → (∃ p ∈ idleGaps outs tExit, p.1 + T < p.2) →
      ∃ f, stallFire T outs tExit = some f ∧ T ≤ f
        ∧ firstStallInfo cmd T outs tExit win
            = some ⟨cmd, f, 1, joinCh '\n' win⟩)
    ∧ (∀ (T : Nat) (outs : List Nat) (tExit : Nat),
        (∀ p ∈ idleGaps outs tExit, p.2 ≤ p.1 + T) →
        stallFire T outs tExit = none)
    ∧ (∀ chunks : List (List Char), (chunks.foldl trackChunk []).length ≤ 10) := by
  refine ⟨fun T outs tExit cmd win hT hgap => ?_, fun T outs tExit hng => ?_,
    trackChunk_bound⟩
  · obtain ⟨f, hf, prev, hprev⟩ :=
      firstFireAux_some_of_gap T 0 outs tExit hgap
    refine ⟨f, ?_, by omega, ?_⟩
    · rw [stallFire, if_neg (by omega)]
      exact hf
    · rw [firstStallInfo, stallFire, if_neg (by omega), hf]
      rfl
  · rw [stallFire]
    split
    · rfl
    · exact firstFireAux_none_of_no_gap T 0 outs tExit hng

/-- Witness for C3 at concrete inputs: a silent command with `T = 2`
fires at `t = 2` with stall count 1; a chatty command that exits 0 in
time never fires. -/
theorem stall_timing_witness :
    (∃ f, stallFire 2 [] 7 = some f ∧ 2 ≤ f
      ∧ firstStallInfo "make build".toList 2 [] 7 []
          = some ⟨"make build".toList, f, 1, []⟩)
    ∧ stallFire 5 [3, 6] 9 = none := by
  constructor
  · exact stall_timing.1 2 [] 7 "make build".toList [] (by decide)
      ⟨(0, 7), by decide, by decide⟩
  · exact stall_timing.2.1 5 [3, 6] 9 (by decide)

/-! ## Session error-cleaning: lemma layer for claim C2 -/

theorem drop_ne_nil {l : List Char} {k : Nat} (h : k < l.length) :
    l.drop k ≠ [] := by
  intro hcon
  have := congrArg List.length hcon
  simp only [List.length_drop, List.length_nil] at this
  omega

theorem mem_of_mem_drop {l : List Char} {k : Nat} {c : Char}
    (h : c ∈ l.drop k) : c ∈ l := List.drop_subset k l h

theorem startsB_false_head {s pat : List Char} (hpat : pat ≠ [])
    (h : s.head? ≠ pat.head?) : startsB s pat = false := by
  rw [Bool.eq_false_iff]
  intro hcon
  exact h (startsB_head hcon hpat)

theorem natRepr_ne_nil (n : Nat) : natRepr n ≠ [] := by
  rw [natRepr]
  split
  · simp
  · simp

theorem natRepr_digits (n : Nat) : ∀ c ∈ natRepr n, c.isDigit = true := by
  induction n using Nat.strong_induction_on with
  | _ n ih =>
    intro c hc
    rw [natRepr] at hc
    split at hc
    · next h =>
      simp only [List.mem_singleton] at hc
      subst hc
      interval_cases n <;> decide
    · next h =>
      simp only [List.mem_append, List.mem_singleton] at hc
      rcases hc with hc | hc
      · exact ih (n / 10) (Nat.div_lt_self (by omega) (by omega)) c hc
      · subst hc
        have h10 : n % 10 < 10 := Nat.mod_lt n (by omega)
        set k := n % 10 with hk
        interval_cases k <;> decide

/-- Basic scanner-unfolding equations. -/
theorem scanRemove_cons_none (m : List Char → Option Nat) (c : Char)
    (t : List Char) (h : m (c :: t) = none) :
    scanRemove m (c :: t) = c :: scanRemove m t := by
  rw [scanRemove, h]

theorem scanRemove_cons_some (m : List Char → Option Nat) (c : Char)
    (t : List Char) (k : Nat) (h : m (c :: t) = some k) (hk : 1 ≤ k) :
    scanRemove m (c :: t) = scanRemove m ((c :: t).drop k) := by
  rw [scanRemove, h]
  show scanRemove m ((c :: t).drop (max k 1)) = scanRemove m ((c :: t).drop k)
  rw [Nat.max_eq_left hk]

/-- A segment none of whose positions starts a match passes through the
scanner unchanged, and scanning resumes on the rest. -/
theorem scanRemove_skip (m : List Char → Option Nat) (a b : List Char)
    (h : ∀ k, k < a.length → m (a.drop k ++ b) = none) :
    scanRemove m (a ++ b) = a ++ scanRemove m b := by
  induction a with
  | nil => simp
  | cons c a ih =>
    have h0 : m (c :: (a ++ b)) = none := by
      have := h 0 (by simp)
      simpa using this
    rw [List.cons_append, scanRemove_cons_none m _ _ h0,
      ih (fun k hk => by
        have := h (k + 1) (by simp; omega)
        simpa using this)]
    rfl

/-- A matcher that always consumes a newline never fires inside a
newline-free string. -/
theorem scanRemove_noNL (m : List Char → Option Nat)
    (hm : ∀ s k, m s = some k → '\n' ∈ s) :
    ∀ s : List Char, '\n' ∉ s → scanRemove m s = s := by
  intro s
  induction s with
  | nil =>
    intro _
    rw [scanRemove]
  | cons c t ih =>
    intro hs
    cases hmc : m (c :: t) with
    | some k => exact absurd (hm _ k hmc) hs
    | none =>
      rw [scanRemove_cons_none m c t hmc,
        ih (fun hmem => hs (List.mem_cons_of_mem c hmem))]

/-! ### The three global matchers: failure and success lemmas -/

theorem mSetE_mem_nl (s : List Char) (k : Nat) (h : mSetE s = some k) :
    '\n' ∈ s := by
  simp only [mSetE, matchLitTok] at h
  split at h
  · next hs => exact startsB_mem hs (by decide)
  · cases h

theorem matchStep_mem_nl (s : List Char) (k : Nat) (h : matchStep s = some k) :
    '\n' ∈ s := by
  simp only [matchStep] at h
  split at h
  · next hs =>
    split at h
    · cases h
    · split at h
      · next hnl =>
        have hmem := List.mem_of_mem_head? hnl
        exact mem_of_mem_drop (mem_of_mem_drop hmem)
      · cases h
  · cases h

theorem lazyQuoteNL_mem_nl (s : List Char) (k : Nat)
    (h : lazyQuoteNL s = some k) : '\n' ∈ s := by
  induction s generalizing k with
  | nil => cases h
  | cons c t ih =>
    rw [lazyQuoteNL] at h
    split at h
    · next hc =>
      rcases t with _ | ⟨d, t2⟩
      · cases hc.2
      · simp only [List.head?_cons, Option.some.injEq] at hc
        rw [← hc.2]
        simp
    · split at h
      · cases h
      · simp only [Option.map_eq_some'] at h
        obtain ⟨j, hj, _⟩ := h
        exact List.mem_cons_of_mem c (ih j hj)

theorem matchEcho_mem_nl (s : List Char) (k : Nat) (h : matchEcho s = some k) :
    '\n' ∈ s := by
  simp only [matchEcho] at h
  split at h
  · simp only [Option.map_eq_some'] at h
    obtain ⟨j, hj, _⟩ := h
    exact mem_of_mem_drop (lazyQuoteNL_mem_nl _ j hj)
  · cases h

/-! ### Where a pattern cannot start -/

/-- A pattern cannot match starting inside `v` when some pattern
character is missing from `v` and `b`'s first character does not occur in
the pattern at all. -/
theorem startsB_append_false_notin (R v b : List Char) (u : Char)
    (hu : u ∈ R) (huv : u ∉ v)
    (hb : ∀ c, b.head? = some c → c ∉ R) :
    startsB (v ++ b) R = false := by
  rw [Bool.eq_false_iff]
  intro hcon
  rcases startsB_append_cases hcon with ⟨_, hsv⟩ | ⟨hlt, _, hbr⟩
  · exact huv (startsB_mem hsv hu)
  · have hd : R.drop v.length ≠ [] := drop_ne_nil hlt
    cases hdl : R.drop v.length with
    | nil => exact hd hdl
    | cons c0 r0 =>
      have hh := startsB_head hbr hd
      rw [hdl] at hh
      simp only [List.head?_cons] at hh
      have hc0 : c0 ∈ R := mem_of_mem_drop (hdl ▸ List.mem_cons_self c0 r0)
      exact hb c0 hh hc0

/-- A pattern cannot match starting inside nonempty `v` when `b`'s first
character occurs in the pattern only at position 0. -/
theorem startsB_append_false_headpos (R v b : List Char) (u w : Char)
    (vb : Nat) (hu : u ∈ R) (huv : u ∉ v)
    (hb : b.head? = some w) (hmax : v.length ≤ vb)
    (hpos : ∀ k, 1 ≤ k → k ≤ vb → R[k]? ≠ some w)
    (hv : v ≠ []) : startsB (v ++ b) R = false := by
  rw [Bool.eq_false_iff]
  intro hcon
  rcases startsB_append_cases hcon with ⟨_, hsv⟩ | ⟨hlt, _, hbr⟩
  · exact huv (startsB_mem hsv hu)
  · have hd : R.drop v.length ≠ [] := drop_ne_nil hlt
    have hh := startsB_head hbr hd
    rw [hb] at hh
    have hget : R[v.length]? = some w := by
      rw [← List.head?_drop]
      exact hh.symm
    have h1 : 1 ≤ v.length := by
      cases v with
      | nil => exact absurd rfl hv
      | cons x xs => simp
    exact hpos v.length h1 hmax hget

theorem mSetE_none_notin (v b : List Char) (hnl : '\n' ∉ v)
    (hb : ∀ c, b.head? = some c → c ∉ "set -e\n".toList) :
    mSetE (v ++ b) = none := by
  have h := startsB_append_false_notin "set -e\n".toList v b '\n' (by decide)
    hnl hb
  simp only [mSetE, matchLitTok, h, Bool.false_eq_true, if_false]

theorem mSetE_none_nl (v b : List Char) (hnl : '\n' ∉ v)
    (hb : b.head? = some '\n') (hne : v ≠ "set -e".toList) :
    mSetE (v ++ b) = none := by
  have h : startsB (v ++ b) "set -e\n".toList = false := by
    rw [Bool.eq_false_iff]
    intro hcon
    rcases startsB_append_cases hcon with ⟨_, hsv⟩ | ⟨hlt, hvt, hbr⟩
    · exact hnl (startsB_mem hsv (by decide))
    · have hlen7 : v.length < 7 := by simpa using hlt
      have hd : ("set -e\n".toList.drop v.length) ≠ [] := drop_ne_nil hlt
      have hh := startsB_head hbr hd
      rw [hb] at hh
      have hget : "set -e\n".toList[v.length]? = some '\n' := by
        rw [← List.head?_drop]
        exact hh.symm
      have hv6 : v.length = 6 := by
        by_contra hne6
        have hforall : ∀ k < 7, k ≠ 6 → "set -e\n".toList[k]? ≠ some '\n' := by
          decide
        exact hforall v.length hlen7 hne6 hget
      refine hne ?_
      rw [hvt, hv6]
      decide
  simp only [mSetE, matchLitTok, h, Bool.false_eq_true, if_false]

theorem matchStep_none_notin (v b : List Char) (hus : '_' ∉ v)
    (hb : ∀ c, b.head? = some c → c ∉ "_envready_step=".toList) :
    matchStep (v ++ b) = none := by
  have h := startsB_append_false_notin "_envready_step=".toList v b '_'
    (by decide) hus hb
  simp only [matchStep, h, Bool.false_eq_true, if_false]

theorem matchStep_none_underscore (v b : List Char) (vb : Nat) (hv : v ≠ [])
    (hus : '_' ∉ v) (hb : b.head? = some '_') (hmax : v.length ≤ vb)
    (hvb : vb ≤ 8)  :
    matchStep (v ++ b) = none := by
  have hpos : ∀ k, 1 ≤ k → k ≤ vb → "_envready_step=".toList[k]? ≠ some '_' := by
    intro k h1 h2
    have h8 : k ≤ 8 := Nat.le_trans h2 hvb
    have hall : ∀ k, 1 ≤ k → k ≤ 8 → "_envready_step=".toList[k]? ≠ some '_' := by
      decide
    exact hall k h1 h8
  have h := startsB_append_false_headpos "_envready_step=".toList v b '_' '_'
    vb (by decide) hus hb hmax hpos hv
  simp only [matchStep, h, Bool.false_eq_true, if_false]

theorem matchEcho_none_notin (v b : List Char) (hq : '\'' ∉ v)
    (hb : ∀ c, b.head? = some c → c ∉ "echo '".toList) :
    matchEcho (v ++ b) = none := by
  have h := startsB_append_false_notin "echo '".toList v b '\'' (by decide)
    hq hb
  simp only [matchEcho, h, Bool.false_eq_true, if_false]

theorem matchEcho_none_e (v b : List Char) (vb : Nat) (hv : v ≠ [])
    (hq : '\'' ∉ v) (hb : b.head? = some 'e') (hmax : v.length ≤ vb)
    (hvb : vb ≤ 5) :
    matchEcho (v ++ b) = none := by
  have hpos : ∀ k, 1 ≤ k → k ≤ vb → "echo '".toList[k]? ≠ some 'e' := by
    intro k h1 h2
    have h5 : k ≤ 5 := Nat.le_trans h2 hvb
    have hall : ∀ k, 1 ≤ k → k ≤ 5 → "echo '".toList[k]? ≠ some 'e' := by
      decide
    exact hall k h1 h5
  have h := startsB_append_false_headpos "echo '".toList v b '\'' 'e'
    vb (by decide) hq hb hmax hpos hv
  simp only [matchEcho, h, Bool.false_eq_true, if_false]

/-! ### Where the patterns do match -/

theorem takeWhile_append_all (p : Char → Bool) (d r : List Char)
    (hd : ∀ c ∈ d, p c = true) (hr : ∀ c, r.head? = some c → p c = false) :
    (d ++ r).takeWhile p = d := by
  induction d with
  | nil =>
    cases r with
    | nil => rfl
    | cons c r2 =>
      have hc := hr c rfl
      simp [List.takeWhile_cons, hc]
  | cons e d2 ih =>
    have he : p e = true := hd e (by simp)
    have ih2 := ih (fun c hc => hd c (List.mem_cons_of_mem e hc))
    simp [List.takeWhile_cons, he, ih2]

theorem matchStep_exact (d rest : List Char) (hd : d ≠ [])
    (hdig : ∀ c ∈ d, c.isDigit = true) :
    matchStep ("_envready_step=".toList ++ (d ++ '\n' :: rest))
      = some (15 + d.length + 1) := by
  have hstart := startsB_app "_envready_step=".toList (d ++ '\n' :: rest)
  simp only [matchStep, hstart, if_true]
  have hdrop : ("_envready_step=".toList ++ (d ++ '\n' :: rest)).drop 15
      = d ++ '\n' :: rest := by
    simp
  rw [hdrop]
  have htw : (d ++ '\n' :: rest).takeWhile Char.isDigit = d :=
    takeWhile_append_all Char.isDigit d ('\n' :: rest) hdig
      (fun c hc => by
        simp only [List.head?_cons, Option.some.injEq] at hc
        rw [← hc]
        decide)
  rw [htw, if_neg (by simpa using hd)]
  have hdrop2 : (d ++ '\n' :: rest).drop d.length = '\n' :: rest :=
    List.drop_left d ('\n' :: rest)
  rw [hdrop2]
  simp

theorem lazyQuoteNL_exact (mid rest : List Char) (hq : '\'' ∉ mid)
    (hnl : '\n' ∉ mid) :
    lazyQuoteNL (mid ++ '\'' :: '\n' :: rest) = some (mid.length + 2) := by
  induction mid with
  | nil => simp [lazyQuoteNL]
  | cons c mid2 ih =>
    have hc1 : c ≠ '\'' := fun hcon => hq (hcon ▸ List.mem_cons_self c mid2)
    have hc2 : c ≠ '\n' := fun hcon => hnl (hcon ▸ List.mem_cons_self c mid2)
    rw [List.cons_append, lazyQuoteNL]
    rw [if_neg (by simp [hc1]), if_neg hc2,
      ih (fun hm => hq (List.mem_cons_of_mem c hm))
         (fun hm => hnl (List.mem_cons_of_mem c hm))]
    simp only [Option.map_some, List.length_cons]
    congr 1

theorem matchEcho_exact (mid rest : List Char) (hq : '\'' ∉ mid)
    (hnl : '\n' ∉ mid) :
    matchEcho ("echo '".toList ++ (mid ++ '\'' :: '\n' :: rest))
      = some (6 + (mid.length + 2)) := by
  have hstart := startsB_app "echo '".toList (mid ++ '\'' :: '\n' :: rest)
  simp only [matchEcho, hstart, if_true]
  have hdrop : ("echo '".toList ++ (mid ++ '\'' :: '\n' :: rest)).drop 6
      = mid ++ '\'' :: '\n' :: rest := by
    simp
  rw [hdrop, lazyQuoteNL_exact mid rest hq hnl]
  rfl

/-! ### None of the matchers fires at a newline -/

theorem mSetE_none_nlhead (r : List Char) : mSetE ('\n' :: r) = none := by
  have h : startsB ('\n' :: r) "set -e\n".toList = false :=
    startsB_false_head (by decide) (by simp)
  simp only [mSetE, matchLitTok, h, Bool.false_eq_true, if_false]

theorem matchStep_none_nlhead (r : List Char) : matchStep ('\n' :: r) = none := by
  have h : startsB ('\n' :: r) "_envready_step=".toList = false :=
    startsB_false_head (by decide) (by simp)
  simp only [matchStep, h, Bool.false_eq_true, if_false]

theorem matchEcho_none_nlhead (r : List Char) : matchEcho ('\n' :: r) = none := by
  have h : startsB ('\n' :: r) "echo '".toList = false :=
    startsB_false_head (by decide) (by simp)
  simp only [matchEcho, h, Bool.false_eq_true, if_false]

/-! ### Skipping a whole line (its trailing newline included) -/

theorem skipLine_mSetE (L rest : List Char) (h1 : '\n' ∉ L)
    (h2 : endsB L "set -e".toList = false) :
    scanRemove mSetE (L ++ '\n' :: rest) = L ++ '\n' :: scanRemove mSetE rest := by
  have hcond : ∀ k, k < (L ++ ['\n']).length →
      mSetE ((L ++ ['\n']).drop k ++ rest) = none := by
    intro k hk
    simp only [List.length_append, List.length_singleton] at hk
    by_cases hkL : k < L.length
    · rw [List.drop_append_of_le_length (le_of_lt hkL), List.append_assoc,
        List.singleton_append]
      refine mSetE_none_nl (L.drop k) ('\n' :: rest)
        (fun hm => h1 (mem_of_mem_drop hm)) rfl ?_
      intro hcon
      have hL : L = L.take k ++ "set -e".toList := by
        rw [← hcon]
        exact (List.take_append_drop k L).symm
      have := endsB_iff.mpr ⟨L.take k, hL⟩
      rw [this] at h2
      cases h2
    · have hke : k = L.length := by omega
      subst hke
      rw [List.drop_left, List.singleton_append]
      exact mSetE_none_nlhead rest
  have hassoc : L ++ '\n' :: rest = (L ++ ['\n']) ++ rest := by simp
  rw [hassoc, scanRemove_skip mSetE (L ++ ['\n']) rest hcond]
  simp

theorem skipLine_mStep (L rest : List Char) (h1 : '_' ∉ L) :
    scanRemove matchStep (L ++ '\n' :: rest)
      = L ++ '\n' :: scanRemove matchStep rest := by
  have hcond : ∀ k, k < (L ++ ['\n']).length →
      matchStep ((L ++ ['\n']).drop k ++ rest) = none := by
    intro k hk
    simp only [List.length_append, List.length_singleton] at hk
    by_cases hkL : k < L.length
    · rw [List.drop_append_of_le_length (le_of_lt hkL), List.append_assoc,
        List.singleton_append]
      refine matchStep_none_notin (L.drop k) ('\n' :: rest)
        (fun hm => h1 (mem_of_mem_drop hm)) ?_
      intro c hc
      simp only [List.head?_cons, Option.some.injEq] at hc
      subst hc
      decide
    · have hke : k = L.length := by omega
      subst hke
      rw [List.drop_left, List.singleton_append]
      exact matchStep_none_nlhead rest
  have hassoc : L ++ '\n' :: rest = (L ++ ['\n']) ++ rest := by simp
  rw [hassoc, scanRemove_skip matchStep (L ++ ['\n']) rest hcond]
  simp

theorem skipLine_mEcho (L rest : List Char) (h1 : '\'' ∉ L) :
    scanRemove matchEcho (L ++ '\n' :: rest)
      = L ++ '\n' :: scanRemove matchEcho rest := by
  have hcond : ∀ k, k < (L ++ ['\n']).length →
      matchEcho ((L ++ ['\n']).drop k ++ rest) = none := by
    intro k hk
    simp only [List.length_append, List.length_singleton] at hk
    by_cases hkL : k < L.length
    · rw [List.drop_append_of_le_length (le_of_lt hkL), List.append_assoc,
        List.singleton_append]
      refine matchEcho_none_notin (L.drop k) ('\n' :: rest)
        (fun hm => h1 (mem_of_mem_drop hm)) ?_
      intro c hc
      simp only [List.head?_cons, Option.some.injEq] at hc
      subst hc
      decide
    · have hke : k = L.length := by omega
      subst hke
      rw [List.drop_left, List.singleton_append]
      exact matchEcho_none_nlhead rest
  have hassoc : L ++ '\n' :: rest = (L ++ ['\n']) ++ rest := by simp
  rw [hassoc, scanRemove_skip matchEcho (L ++ ['\n']) rest hcond]
  simp

/-! ### Skipping a newline-free leading chunk -/

theorem skipSeg_mSetE (a b : List Char) (h1 : '\n' ∉ a)
    (hb : ∀ c, b.head? = some c → c ∉ "set -e\n".toList) :
    scanRemove mSetE (a ++ b) = a ++ scanRemove mSetE b :=
  scanRemove_skip _ a b (fun k _ =>
    mSetE_none_notin (a.drop k) b (fun hm => h1 (mem_of_mem_drop hm)) hb)

theorem skipSeg_mStep (a b : List Char) (h1 : '_' ∉ a)
    (hb : ∀ c, b.head? = some c → c ∉ "_envready_step=".toList) :
    scanRemove matchStep (a ++ b) = a ++ scanRemove matchStep b :=
  scanRemove_skip _ a b (fun k _ =>
    matchStep_none_notin (a.drop k) b (fun hm => h1 (mem_of_mem_drop hm)) hb)

theorem skipSeg_mStep_underscore (a b : List Char) (h1 : '_' ∉ a)
    (hlen : a.length ≤ 8) (hb : b.head? = some '_') :
    scanRemove matchStep (a ++ b) = a ++ scanRemove matchStep b :=
  scanRemove_skip _ a b (fun k hk =>
    matchStep_none_underscore (a.drop k) b 8 (drop_ne_nil hk)
      (fun hm => h1 (mem_of_mem_drop hm)) hb
      (by
        have := List.length_drop k a
        omega)
      (le_refl 8))

theorem skipSeg_mEcho (a b : List Char) (h1 : '\'' ∉ a)
    (hb : ∀ c, b.head? = some c → c ∉ "echo '".toList) :
    scanRemove matchEcho (a ++ b) = a ++ scanRemove matchEcho b :=
  scanRemove_skip _ a b (fun k _ =>
    matchEcho_none_notin (a.drop k) b (fun hm => h1 (mem_of_mem_drop hm)) hb)

theorem skipSeg_mEcho_e (a b : List Char) (h1 : '\'' ∉ a)
    (hlen : a.length ≤ 5) (hb : b.head? = some 'e') :
    scanRemove matchEcho (a ++ b) = a ++ scanRemove matchEcho b :=
  scanRemove_skip _ a b (fun k hk =>
    matchEcho_none_e (a.drop k) b 5 (drop_ne_nil hk)
      (fun hm => h1 (mem_of_mem_drop hm)) hb
      (by
        have := List.length_drop k a
        omega)
      (le_refl 5))

/-! ### Character facts about the generated script pieces -/

theorem escQ_id {s : List Char} (h : '\'' ∉ s) : escQ s = s := by
  induction s with
  | nil => rfl
  | cons c t ih =>
    have hc : c ≠ '\'' := fun hcon => h (hcon ▸ List.mem_cons_self c t)
    rw [escQ, if_neg hc, ih (fun hm => h (List.mem_cons_of_mem c hm))]

theorem display_not_mem {t : List Char} {c : Char} (hct : c ∉ t)
    (hcdot : c ≠ '.') : c ∉ display t := by
  rw [display]
  split
  · intro hm
    rcases List.mem_append.mp hm with hm | hm
    · exact hct (List.take_subset 77 t hm)
    · have : c = '.' := by
        have hsub : "...".toList ⊆ ['.'] := by decide
        have := hsub hm
        simpa using this
      exact hcdot this
  · exact hct

theorem digit_ne_chars {c : Char} (h : c.isDigit = true) :
    c ≠ '\n' ∧ c ≠ '_' ∧ c ≠ '\'' ∧ c ≠ '.' := by
  refine ⟨?_, ?_, ?_, ?_⟩ <;> (rintro rfl; revert h; decide)

theorem not_mem_natRepr {c : Char} (n : Nat) (hc : c.isDigit = false) :
    c ∉ natRepr n := by
  intro hm
  rw [natRepr_digits n c hm] at hc
  cases hc

theorem not_mem_stepMarker (t : List Char) (c : Char) (i n : Nat)
    (hct : c ∉ t) (hq : '\'' ∉ t) (hcdot : c ≠ '.')
    (hfixed : c ∉ "echo '  ▶ [/] ".toList) (hcdig : c.isDigit = false) :
    c ∉ stepMarkerLine i n t := by
  have hdisp : '\'' ∉ display t :=
    display_not_mem hq (by decide)
  rw [stepMarkerLine, escQ_id hdisp]
  intro hm
  have hA : c ∉ "echo '  ▶ [".toList := fun hx =>
    hfixed ((by decide : "echo '  ▶ [".toList ⊆ "echo '  ▶ [/] ".toList) hx)
  have hB : c ∉ natRepr i := not_mem_natRepr i hcdig
  have hC : c ∉ "/".toList := fun hx =>
    hfixed ((by decide : "/".toList ⊆ "echo '  ▶ [/] ".toList) hx)
  have hD : c ∉ natRepr n := not_mem_natRepr n hcdig
  have hE : c ∉ "] ".toList := fun hx =>
    hfixed ((by decide : "] ".toList ⊆ "echo '  ▶ [/] ".toList) hx)
  have hF : c ∉ display t := display_not_mem hct hcdot
  have hG : c ≠ '\'' := by
    intro hx
    subst hx
    exact hfixed (by decide)
  simp only [List.mem_append, List.mem_singleton] at hm
  tauto

theorem getLast_append_ne {x : List Char} :
    endsB (x ++ ['\'']) "set -e".toList = false := by
  rw [Bool.eq_false_iff]
  intro h
  obtain ⟨a, ha⟩ := endsB_iff.mp h
  have h1 : (x ++ ['\'']).getLast? = some '\'' := List.getLast?_concat x
  have h2 : (a ++ "set -e".toList).getLast? = some 'e' := by
    rw [@List.getLast?_append_of_ne_nil _ a "set -e".toList (by decide)]
    decide
  rw [ha, h2] at h1
  cases h1

/-! ### Evaluating the cleaning chain on the three-command script -/

theorem natRepr_lt10 (n : Nat) (h : n < 10) : natRepr n = [Char.ofNat (48 + n)] := by
  rw [natRepr]
  exact dif_pos h

theorem natRepr_one : natRepr 1 = ['1'] := by
  rw [natRepr_lt10 1 (by omega)]

theorem natRepr_two : natRepr 2 = ['2'] := by
  rw [natRepr_lt10 2 (by omega)]

theorem natRepr_three : natRepr 3 = ['3'] := by
  rw [natRepr_lt10 3 (by omega)]

theorem scriptLines_three (t1 t2 t3 : List Char) :
    scriptLines [t1, t2, t3] = ["set -e".toList, "_envready_step=0".toList,
      "_envready_step=1".toList, stepMarkerLine 1 3 t1, t1,
      "_envready_step=2".toList, stepMarkerLine 2 3 t2, t2,
      "_envready_step=3".toList, stepMarkerLine 3 3 t3, t3] := by
  simp only [scriptLines, List.enum, List.enumFrom, List.flatMap_cons,
    List.flatMap_nil]
  norm_num [natRepr_one, natRepr_two, natRepr_three]

theorem mkFailMsg_shape (t1 t2 t3 err : List Char) (code : Nat) :
    mkFailMsg (buildScript [t1, t2, t3]) code err
      = "Command failed (exit ".toList ++ (natRepr code ++ ("): set -e".toList
        ++ '\n' :: ("_envready_step=0".toList
        ++ '\n' :: ("_envready_step=1".toList
        ++ '\n' :: (stepMarkerLine 1 3 t1
        ++ '\n' :: (t1
        ++ '\n' :: ("_envready_step=2".toList
        ++ '\n' :: (stepMarkerLine 2 3 t2
        ++ '\n' :: (t2
        ++ '\n' :: ("_envready_step=3".toList
        ++ '\n' :: (stepMarkerLine 3 3 t3
        ++ '\n' :: (t3
        ++ '\n' :: lastN 500 err)))))))))))) := by
  rw [mkFailMsg, buildScript, scriptLines_three]
  simp only [joinCh_two, joinCh]
  simp [List.append_assoc]
theorem replaceFirstFn_eq (m : List Char → Option (List Char × Nat))
    (s repl : List Char) (k : Nat) (h : m s = some (repl, k)) (hk : 1 ≤ k) :
    replaceFirstFn m s = repl ++ s.drop k := by
  cases s with
  | nil =>
    rw [replaceFirstFn, h]
    simp
  | cons c t =>
    rw [replaceFirstFn, h]
    show repl ++ (c :: t).drop (max k 1) = repl ++ (c :: t).drop k
    rw [Nat.max_eq_left hk]

theorem matchHead_exact (d z : List Char) (hd : d ≠ [])
    (hdig : ∀ c ∈ d, c.isDigit = true) :
    matchHead ("Command failed (exit ".toList
        ++ (d ++ ("): set -e".toList ++ '\n' :: '_' :: z)))
      = some ("Command failed (exit ".toList ++ d ++ "): ".toList,
              21 + d.length + 9 + 1) := by
  have hstart := startsB_app "Command failed (exit ".toList
    (d ++ ("): set -e".toList ++ '\n' :: '_' :: z))
  simp only [matchHead, hstart, if_true]
  have hdrop : ("Command failed (exit ".toList
      ++ (d ++ ("): set -e".toList ++ '\n' :: '_' :: z))).drop 21
      = d ++ ("): set -e".toList ++ '\n' :: '_' :: z) := by
    simp
  rw [hdrop]
  have htw : (d ++ ("): set -e".toList ++ '\n' :: '_' :: z)).takeWhile
      Char.isDigit = d := by
    refine takeWhile_append_all Char.isDigit d _ hdig ?_
    intro c hc
    rw [List.head?_append_of_ne_nil _ (by decide)] at hc
    simp only [show ("): set -e".toList).head? = some ')' from rfl,
      Option.some.injEq] at hc
    rw [← hc]
    decide
  rw [htw, if_neg (by simpa using hd)]
  have hdrop2 : (d ++ ("): set -e".toList ++ '\n' :: '_' :: z)).drop d.length
      = "): set -e".toList ++ '\n' :: '_' :: z :=
    List.drop_left d _
  rw [hdrop2]
  rw [if_pos (startsB_app "): set -e".toList ('\n' :: '_' :: z))]
  have hdrop3 : (d ++ ("): set -e".toList ++ '\n' :: '_' :: z)).drop
      (d.length + 9) = '\n' :: '_' :: z := by
    rw [List.drop_append 9]
    simp
  rw [hdrop3]
  have hlazy : lazyNLWS ('\n' :: '_' :: z) = some 1 := by
    simp [lazyNLWS, isWS]
  rw [hlazy]
theorem pass1_core (d z : List Char) (hd : d ≠ [])
    (hdig : ∀ c ∈ d, c.isDigit = true) :
    replaceFirstFn matchHead
      ("Command failed (exit ".toList
        ++ (d ++ ("): set -e".toList ++ '\n' :: '_' :: z)))
      = "Command failed (exit ".toList ++ d ++ "): ".toList ++ '_' :: z := by
  rw [replaceFirstFn_eq matchHead _ _ _ (matchHead_exact d z hd hdig) (by omega)]
  have hP : "Command failed (exit ".toList
        ++ (d ++ ("): set -e".toList ++ '\n' :: '_' :: z))
      = ("Command failed (exit ".toList ++ d ++ "): set -e".toList ++ ['\n'])
        ++ '_' :: z := by
    simp [List.append_assoc]
  rw [hP]
  have hlen : ("Command failed (exit ".toList ++ d ++ "): set -e".toList
      ++ ['\n']).length = 21 + d.length + 9 + 1 := by
    simp [List.length_append]
    omega
  rw [← hlen, List.drop_left]
theorem digit_not_mem_pat (c : Char) (hc : c.isDigit = true) (pat : List Char)
    (hp : ∀ x ∈ pat, x.isDigit = false) : c ∉ pat := fun hm => by
  rw [hp c hm] at hc
  cases hc

theorem scanRemove_match_head (m : List Char → Option Nat) (s : List Char)
    (k : Nat) (h : m s = some k) (hk : 1 ≤ k) (hs : s ≠ []) :
    scanRemove m s = scanRemove m (s.drop k) := by
  cases s with
  | nil => exact absurd rfl hs
  | cons c t => exact scanRemove_cons_some m c t k h hk

theorem stepMarker_not_setE (i n : Nat) (t : List Char) :
    endsB (stepMarkerLine i n t) "set -e".toList = false := by
  have hform : stepMarkerLine i n t
      = ("echo '  ▶ [".toList ++ natRepr i ++ "/".toList ++ natRepr n
          ++ "] ".toList ++ escQ (display t)) ++ ['\''] := by
    simp [stepMarkerLine, List.append_assoc]
  rw [hform]
  exact getLast_append_ne

theorem stepMarker_no_nl (i n : Nat) (t : List Char) (hnl : '\n' ∉ t)
    (hq : '\'' ∉ t) : '\n' ∉ stepMarkerLine i n t :=
  not_mem_stepMarker t '\n' i n hnl hq (by decide) (by decide) (by decide)

theorem stepMarker_no_us (i n : Nat) (t : List Char) (hus : '_' ∉ t)
    (hq : '\'' ∉ t) : '_' ∉ stepMarkerLine i n t :=
  not_mem_stepMarker t '_' i n hus hq (by decide) (by decide) (by decide)

theorem pass2_chain (D t1 t2 t3 TL : List Char)
    (hD : ∀ c ∈ D, c.isDigit = true) (hDne : D ≠ [])
    (h1nl : '\n' ∉ t1) (h1q : '\'' ∉ t1) (h1se : endsB t1 "set -e".toList = false)
    (h2nl : '\n' ∉ t2) (h2q : '\'' ∉ t2) (h2se : endsB t2 "set -e".toList = false)
    (h3nl : '\n' ∉ t3) (h3q : '\'' ∉ t3) (h3se : endsB t3 "set -e".toList = false)
    (hTL : '\n' ∉ TL) :
    scanRemove mSetE
      ("Command failed (exit ".toList ++ (D ++ ("): ".toList ++ ("_envready_step=0".toList ++ '\n' :: ("_envready_step=1".toList ++ '\n' :: (stepMarkerLine 1 3 t1 ++ '\n' :: (t1 ++ '\n' :: ("_envready_step=2".toList ++ '\n' :: (stepMarkerLine 2 3 t2 ++ '\n' :: (t2 ++ '\n' :: ("_envready_step=3".toList ++ '\n' :: (stepMarkerLine 3 3 t3 ++ '\n' :: (t3 ++ '\n' :: (TL))))))))))))))
      = "Command failed (exit ".toList ++ (D ++ ("): ".toList ++ ("_envready_step=0".toList ++ '\n' :: ("_envready_step=1".toList ++ '\n' :: (stepMarkerLine 1 3 t1 ++ '\n' :: (t1 ++ '\n' :: ("_envready_step=2".toList ++ '\n' :: (stepMarkerLine 2 3 t2 ++ '\n' :: (t2 ++ '\n' :: ("_envready_step=3".toList ++ '\n' :: (stepMarkerLine 3 3 t3 ++ '\n' :: (t3 ++ '\n' :: (TL))))))))))))) := by
  rw [skipSeg_mSetE "Command failed (exit ".toList _ (by decide)
    (fun c hc => by
      rw [List.head?_append_of_ne_nil _ hDne] at hc
      exact digit_not_mem_pat c (hD c (List.mem_of_mem_head? hc)) _ (by decide))]
  rw [skipSeg_mSetE D _
    (fun hm => by
      have := digit_ne_chars (hD '\n' hm)
      exact this.1 rfl)
    (fun c hc => by
      rw [List.head?_append_of_ne_nil _ (by decide)] at hc
      have hh : ("): ".toList : List Char).head? = some ')' := by decide
      rw [hh] at hc
      simp only [Option.some.injEq] at hc
      subst hc
      decide)]
  rw [skipSeg_mSetE "): ".toList _ (by decide)
    (fun c hc => by
      rw [List.head?_append_of_ne_nil _ (by decide)] at hc
      have hh : ("_envready_step=0".toList : List Char).head? = some '_' := by decide
      rw [hh] at hc
      simp only [Option.some.injEq] at hc
      subst hc
      decide)]
  rw [skipLine_mSetE "_envready_step=0".toList _ (by decide) (by decide)]
  rw [skipLine_mSetE "_envready_step=1".toList _ (by decide) (by decide)]
  rw [skipLine_mSetE (stepMarkerLine 1 3 t1) _ (stepMarker_no_nl 1 3 t1 h1nl h1q)
    (stepMarker_not_setE 1 3 t1)]
  rw [skipLine_mSetE t1 _ h1nl h1se]
  rw [skipLine_mSetE "_envready_step=2".toList _ (by decide) (by decide)]
  rw [skipLine_mSetE (stepMarkerLine 2 3 t2) _ (stepMarker_no_nl 2 3 t2 h2nl h2q)
    (stepMarker_not_setE 2 3 t2)]
  rw [skipLine_mSetE t2 _ h2nl h2se]
  rw [skipLine_mSetE "_envready_step=3".toList _ (by decide) (by decide)]
  rw [skipLine_mSetE (stepMarkerLine 3 3 t3) _ (stepMarker_no_nl 3 3 t3 h3nl h3q)
    (stepMarker_not_setE 3 3 t3)]
  rw [skipLine_mSetE t3 _ h3nl h3se]
  rw [scanRemove_noNL mSetE mSetE_mem_nl TL hTL]
theorem removeLine_mStep (d rest : List Char) (hd : d ≠ [])
    (hdig : ∀ c ∈ d, c.isDigit = true) :
    scanRemove matchStep ("_envready_step=".toList ++ (d ++ '\n' :: rest))
      = scanRemove matchStep rest := by
  rw [scanRemove_match_head matchStep _ (15 + d.length + 1)
    (matchStep_exact d rest hd hdig) (by omega) (by simp)]
  congr 1
  have hsh : "_envready_step=".toList ++ (d ++ '\n' :: rest)
      = ("_envready_step=".toList ++ d ++ ['\n']) ++ rest := by
    simp
  rw [hsh]
  have hlen : ("_envready_step=".toList ++ d ++ ['\n']).length
      = 15 + d.length + 1 := by
    simp
    omega
  rw [← hlen, List.drop_left]

theorem pass3_chain (D t1 t2 t3 TL : List Char)
    (hD : ∀ c ∈ D, c.isDigit = true) (hDne : D ≠ [])
    (h1q : '\'' ∉ t1) (h1u : '_' ∉ t1)
    (h2q : '\'' ∉ t2) (h2u : '_' ∉ t2)
    (h3q : '\'' ∉ t3) (h3u : '_' ∉ t3)
    (hTL : '\n' ∉ TL) :
    scanRemove matchStep
      ("Command failed (exit ".toList ++ (D ++ ("): ".toList ++ ("_envready_step=0".toList ++ '\n' :: ("_envready_step=1".toList ++ '\n' :: (stepMarkerLine 1 3 t1 ++ '\n' :: (t1 ++ '\n' :: ("_envready_step=2".toList ++ '\n' :: (stepMarkerLine 2 3 t2 ++ '\n' :: (t2 ++ '\n' :: ("_envready_step=3".toList ++ '\n' :: (stepMarkerLine 3 3 t3 ++ '\n' :: (t3 ++ '\n' :: (TL))))))))))))))
      = "Command failed (exit ".toList ++ (D ++ ("): ".toList ++ (stepMarkerLine 1 3 t1 ++ '\n' :: (t1 ++ '\n' :: (stepMarkerLine 2 3 t2 ++ '\n' :: (t2 ++ '\n' :: (stepMarkerLine 3 3 t3 ++ '\n' :: (t3 ++ '\n' :: (TL))))))))) := by
  rw [skipSeg_mStep "Command failed (exit ".toList _ (by decide)
    (fun c hc => by
      rw [List.head?_append_of_ne_nil _ hDne] at hc
      exact digit_not_mem_pat c (hD c (List.mem_of_mem_head? hc)) _ (by decide))]
  rw [skipSeg_mStep D _
    (fun hm => by
      have := digit_ne_chars (hD '_' hm)
      exact this.2.1 rfl)
    (fun c hc => by
      rw [List.head?_append_of_ne_nil _ (by decide)] at hc
      have hh : ("): ".toList : List Char).head? = some ')' := by decide
      rw [hh] at hc
      simp only [Option.some.injEq] at hc
      subst hc
      decide)]
  rw [skipSeg_mStep_underscore "): ".toList _ (by decide) (by decide)
    (by
      rw [List.head?_append_of_ne_nil _ (by decide)]
      decide)]
  have hs0 : ∀ R : List Char, "_envready_step=0".toList ++ '\n' :: R
      = "_envready_step=".toList ++ (['0'] ++ '\n' :: R) := fun R => rfl
  have hs1 : ∀ R : List Char, "_envready_step=1".toList ++ '\n' :: R
      = "_envready_step=".toList ++ (['1'] ++ '\n' :: R) := fun R => rfl
  have hs2 : ∀ R : List Char, "_envready_step=2".toList ++ '\n' :: R
      = "_envready_step=".toList ++ (['2'] ++ '\n' :: R) := fun R => rfl
  have hs3 : ∀ R : List Char, "_envready_step=3".toList ++ '\n' :: R
      = "_envready_step=".toList ++ (['3'] ++ '\n' :: R) := fun R => rfl
  rw [hs0, removeLine_mStep ['0'] _ (by decide) (by decide)]
  rw [hs1, removeLine_mStep ['1'] _ (by decide) (by decide)]
  rw [skipLine_mStep (stepMarkerLine 1 3 t1) _ (stepMarker_no_us 1 3 t1 h1u h1q)]
  rw [skipLine_mStep t1 _ h1u]
  rw [hs2, removeLine_mStep ['2'] _ (by decide) (by decide)]
  rw [skipLine_mStep (stepMarkerLine 2 3 t2) _ (stepMarker_no_us 2 3 t2 h2u h2q)]
  rw [skipLine_mStep t2 _ h2u]
  rw [hs3, removeLine_mStep ['3'] _ (by decide) (by decide)]
  rw [skipLine_mStep (stepMarkerLine 3 3 t3) _ (stepMarker_no_us 3 3 t3 h3u h3q)]
  rw [skipLine_mStep t3 _ h3u]
  rw [scanRemove_noNL matchStep matchStep_mem_nl TL hTL]
theorem removeLine_mEcho (i n : Nat) (t rest : List Char) (hq : '\'' ∉ t)
    (hnl : '\n' ∉ t) :
    scanRemove matchEcho (stepMarkerLine i n t ++ '\n' :: rest)
      = scanRemove matchEcho rest := by
  have hdq : '\'' ∉ display t := display_not_mem hq (by decide)
  have hdn : '\n' ∉ display t := display_not_mem hnl (by decide)
  have hmq : '\'' ∉ "  ▶ [".toList ++ (natRepr i ++ ("/".toList
      ++ (natRepr n ++ ("] ".toList ++ escQ (display t))))) := by
    rw [escQ_id hdq]
    intro hm
    simp only [List.mem_append] at hm
    rcases hm with hm | hm | hm | hm | hm | hm
    · exact absurd hm (by decide)
    · exact not_mem_natRepr i (by decide) hm
    · exact absurd hm (by decide)
    · exact not_mem_natRepr n (by decide) hm
    · exact absurd hm (by decide)
    · exact hdq hm
  have hmn : '\n' ∉ "  ▶ [".toList ++ (natRepr i ++ ("/".toList
      ++ (natRepr n ++ ("] ".toList ++ escQ (display t))))) := by
    rw [escQ_id hdq]
    intro hm
    simp only [List.mem_append] at hm
    rcases hm with hm | hm | hm | hm | hm | hm
    · exact absurd hm (by decide)
    · exact not_mem_natRepr i (by decide) hm
    · exact absurd hm (by decide)
    · exact not_mem_natRepr n (by decide) hm
    · exact absurd hm (by decide)
    · exact hdn hm
  have hform : stepMarkerLine i n t ++ '\n' :: rest
      = "echo '".toList ++ (("  ▶ [".toList ++ (natRepr i ++ ("/".toList
          ++ (natRepr n ++ ("] ".toList ++ escQ (display t))))))
        ++ '\'' :: '\n' :: rest) := by
    have hsplit : ("echo '  ▶ [".toList : List Char)
        = "echo '".toList ++ "  ▶ [".toList := by decide
    simp [stepMarkerLine, hsplit, List.append_assoc]
  rw [hform]
  rw [scanRemove_match_head matchEcho _ _
    (matchEcho_exact _ rest hmq hmn) (by omega) (by simp)]
  congr 1
  have hsh : "echo '".toList ++ (("  ▶ [".toList ++ (natRepr i ++ ("/".toList
      ++ (natRepr n ++ ("] ".toList ++ escQ (display t))))))
        ++ '\'' :: '\n' :: rest)
      = ("echo '".toList ++ ("  ▶ [".toList ++ (natRepr i ++ ("/".toList
          ++ (natRepr n ++ ("] ".toList ++ escQ (display t))))))
          ++ ['\''] ++ ['\n']) ++ rest := by
    simp
  rw [hsh]
  have hlen : ("echo '".toList ++ ("  ▶ [".toList ++ (natRepr i ++ ("/".toList
      ++ (natRepr n ++ ("] ".toList ++ escQ (display t))))))
      ++ ['\''] ++ ['\n']).length
      = 6 + (("  ▶ [".toList ++ (natRepr i ++ ("/".toList
          ++ (natRepr n ++ ("] ".toList ++ escQ (display t)))))).length + 2) := by
    simp
    omega
  rw [← hlen, List.drop_left]

theorem pass4_chain (D t1 t2 t3 TL : List Char)
    (hD : ∀ c ∈ D, c.isDigit = true) (hDne : D ≠ [])
    (h1q : '\'' ∉ t1) (h1nl : '\n' ∉ t1)
    (h2q : '\'' ∉ t2) (h2nl : '\n' ∉ t2)
    (h3q : '\'' ∉ t3) (h3nl : '\n' ∉ t3)
    (hTL : '\n' ∉ TL) :
    scanRemove matchEcho
      ("Command failed (exit ".toList ++ (D ++ ("): ".toList ++ (stepMarkerLine 1 3 t1 ++ '\n' :: (t1 ++ '\n' :: (stepMarkerLine 2 3 t2 ++ '\n' :: (t2 ++ '\n' :: (stepMarkerLine 3 3 t3 ++ '\n' :: (t3 ++ '\n' :: (TL))))))))))
      = "Command failed (exit ".toList ++ (D ++ ("): ".toList ++ (t1 ++ '\n' :: (t2 ++ '\n' :: (t3 ++ '\n' :: (TL)))))) := by
  rw [skipSeg_mEcho "Command failed (exit ".toList _ (by decide)
    (fun c hc => by
      rw [List.head?_append_of_ne_nil _ hDne] at hc
      exact digit_not_mem_pat c (hD c (List.mem_of_mem_head? hc)) _ (by decide))]
  rw [skipSeg_mEcho D _
    (fun hm => by
      have := digit_ne_chars (hD '\'' hm)
      exact this.2.2.1 rfl)
    (fun c hc => by
      rw [List.head?_append_of_ne_nil _ (by decide)] at hc
      have hh : ("): ".toList : List Char).head? = some ')' := by decide
      rw [hh] at hc
      simp only [Option.some.injEq] at hc
      subst hc
      decide)]
  rw [skipSeg_mEcho_e "): ".toList _ (by decide) (by decide)
    (by
      rw [List.head?_append_of_ne_nil _ (by simp [stepMarkerLine])]
      simp [stepMarkerLine])]
  rw [removeLine_mEcho 1 3 t1 _ h1q h1nl]
  rw [skipLine_mEcho t1 _ h1q]
  rw [removeLine_mEcho 2 3 t2 _ h2q h2nl]
  rw [skipLine_mEcho t2 _ h2q]
  rw [removeLine_mEcho 3 3 t3 _ h3q h3nl]
  rw [skipLine_mEcho t3 _ h3q]
  rw [scanRemove_noNL matchEcho matchEcho_mem_nl TL hTL]

/-! ### Assembling the full cleaning computation -/

theorem cleanMsg_three (t1 t2 t3 errAcc : List Char) (code : Nat)
    (h1nl : '\n' ∉ t1) (h1q : '\'' ∉ t1) (h1u : '_' ∉ t1)
    (h1se : endsB t1 "set -e".toList = false)
    (h2nl : '\n' ∉ t2) (h2q : '\'' ∉ t2) (h2u : '_' ∉ t2)
    (h2se : endsB t2 "set -e".toList = false)
    (h3nl : '\n' ∉ t3) (h3q : '\'' ∉ t3) (h3u : '_' ∉ t3)
    (h3se : endsB t3 "set -e".toList = false)
    (hTL : '\n' ∉ lastN 500 errAcc) :
    cleanSessionMsg (mkFailMsg (buildScript [t1, t2, t3]) code errAcc)
      = "Command failed (exit ".toList ++ (natRepr code ++ ("): ".toList
        ++ (t1 ++ '\n' :: (t2 ++ '\n' :: (t3 ++ '\n' :: lastN 500 errAcc))))) := by
  rw [cleanSessionMsg, mkFailMsg_shape]
  have hz : ∀ Z : List Char, ("_envready_step=0".toList ++ Z : List Char)
      = '_' :: ("envready_step=0".toList ++ Z) := fun _ => rfl
  rw [hz]
  rw [pass1_core (natRepr code) _ (natRepr_ne_nil code) (natRepr_digits code)]
  have hz2 : ∀ Z : List Char, ('_' : Char) :: ("envready_step=0".toList ++ Z)
      = "_envready_step=0".toList ++ Z := fun _ => rfl
  rw [hz2]
  simp only [List.append_assoc]
  rw [pass2_chain (natRepr code) t1 t2 t3 (lastN 500 errAcc)
    (natRepr_digits code) (natRepr_ne_nil code)
    h1nl h1q h1se h2nl h2q h2se h3nl h3q h3se hTL]
  rw [pass3_chain (natRepr code) t1 t2 t3 (lastN 500 errAcc)
    (natRepr_digits code) (natRepr_ne_nil code)
    h1q h1u h2q h2u h3q h3u hTL]
  rw [pass4_chain (natRepr code) t1 t2 t3 (lastN 500 errAcc)
    (natRepr_digits code) (natRepr_ne_nil code)
    h1q h1nl h2q h2nl h3q h3nl hTL]

/-! ### Lines of the cleaned message -/

theorem splitCh_ne_nil (sep : Char) (s : List Char) : splitCh sep s ≠ [] := by
  cases s with
  | nil => simp [splitCh]
  | cons c t =>
    rw [splitCh]
    split
    · simp
    · cases h : splitCh sep t with
      | nil => simp
      | cons l ls => simp

theorem splitCh_line (sep : Char) (L rest : List Char) (h : sep ∉ L) :
    splitCh sep (L ++ sep :: rest) = L :: splitCh sep rest := by
  induction L with
  | nil => simp [splitCh]
  | cons c L2 ih =>
    have hc : c ≠ sep := fun hcon => h (hcon ▸ List.mem_cons_self c L2)
    rw [List.cons_append, splitCh, if_neg hc,
      ih (fun hm => h (List.mem_cons_of_mem c hm))]

theorem splitCh_no_sep (sep : Char) (s : List Char) (h : sep ∉ s) :
    splitCh sep s = [s] := by
  induction s with
  | nil => rfl
  | cons c t ih =>
    have hc : c ≠ sep := fun hcon => h (hcon ▸ List.mem_cons_self c t)
    rw [splitCh, if_neg hc, ih (fun hm => h (List.mem_cons_of_mem c hm))]

theorem endsB_refl (s : List Char) : endsB s s = true := by
  simp [endsB]

/-! ### The shell's fail-fast run of the three commands -/

theorem execSteps_three (c1 c2 c3 : CmdBehavior) (h1 : c1.code = 0)
    (h2 : c2.code ≠ 0) :
    (execSteps 3 1 [c1, c2, c3]).1 = [c1.text, c2.text]
    ∧ (execSteps 3 1 [c1, c2, c3]).2.1 = c2.code
    ∧ (execSteps 3 1 [c1, c2, c3]).2.2.2 = c1.err ++ c2.err := by
  simp [execSteps, h1, h2]

theorem endsB_false_ne {t p : List Char} (h : endsB t p = false) : t ≠ p := by
  intro hcon
  rw [hcon, endsB_refl] at h
  exact Bool.noConfusion h

theorem plainLine_clean (t : List Char) (hq : '\'' ∉ t) (hu : '_' ∉ t)
    (hne : t ≠ "set -e".toList) :
    t ≠ "set -e".toList
    ∧ startsB t "_envready_step=".toList = false
    ∧ startsB t "echo '".toList = false := by
  refine ⟨hne, ?_, ?_⟩
  · rw [Bool.eq_false_iff]
    intro hcon
    exact hu (startsB_mem hcon (by decide))
  · rw [Bool.eq_false_iff]
    intro hcon
    exact hq (startsB_mem hcon (by decide))

theorem headerLine_clean (r : List Char) :
    ('C' :: r) ≠ "set -e".toList
    ∧ startsB ('C' :: r) "_envready_step=".toList = false
    ∧ startsB ('C' :: r) "echo '".toList = false := by
  refine ⟨?_, ?_, ?_⟩
  · intro hcon
    have h2 := congrArg List.head? hcon
    rw [List.head?_cons] at h2
    exact absurd h2 (by decide)
  · refine startsB_false_head (by decide) ?_
    intro hcon
    rw [List.head?_cons] at hcon
    exact absurd hcon (by decide)
  · refine startsB_false_head (by decide) ?_
    intro hcon
    rw [List.head?_cons] at hcon
    exact absurd hcon (by decide)

set_option maxRecDepth 8000 in
/-- C2: in a three-command session whose second command exits non-zero,
steps 1 and 2 run and step 3 never runs; the session fails with a message
whose lines are exactly the failure header naming command 2 exit code and
the three command texts plus the stderr tail, and no line is a `set -e`
line, a `_envready_step=` assignment, or a step-marker `echo` line. -/
theorem session_three (c1 c2 c3 : CmdBehavior)
    (h1code : c1.code = 0) (h2code : c2.code ≠ 0)
    (h1nl : '\n' ∉ c1.text) (h1q : '\'' ∉ c1.text) (h1u : '_' ∉ c1.text)
    (h1se : endsB c1.text "set -e".toList = false)
    (h2nl : '\n' ∉ c2.text) (h2q : '\'' ∉ c2.text) (h2u : '_' ∉ c2.text)
    (h2se : endsB c2.text "set -e".toList = false)
    (h3nl : '\n' ∉ c3.text) (h3q : '\'' ∉ c3.text) (h3u : '_' ∉ c3.text)
    (h3se : endsB c3.text "set -e".toList = false)
    (herr1 : '\n' ∉ c1.err) (herr2 : '\n' ∉ c2.err)
    (hT0 : lastN 500 (c1.err ++ c2.err) ≠ "set -e".toList)
    (hT1 : '_' ∉ lastN 500 (c1.err ++ c2.err))
    (hT2 : '\'' ∉ lastN 500 (c1.err ++ c2.err)) :
    (execSteps 3 1 [c1, c2, c3]).1 = [c1.text, c2.text]
    ∧ ∃ msg : List Char,
        sessionOnBehaviors [c1, c2, c3] = SessionOutcome.fail msg
        ∧ splitCh '\n' msg
            = ["Command failed (exit ".toList ++ natRepr c2.code
                 ++ "): ".toList ++ c1.text,
               c2.text, c3.text, lastN 500 (c1.err ++ c2.err)]
        ∧ ∀ L ∈ splitCh '\n' msg,
            L ≠ "set -e".toList
            ∧ startsB L "_envready_step=".toList = false
            ∧ startsB L "echo '".toList = false := by
  have hexec := execSteps_three c1 c2 c3 h1code h2code
  have hTL : '\n' ∉ lastN 500 (c1.err ++ c2.err) := by
    intro hm
    have hm2 : '\n' ∈ c1.err ++ c2.err := mem_of_mem_drop hm
    rcases List.mem_append.mp hm2 with hm3 | hm3
    · exact herr1 hm3
    · exact herr2 hm3
  have hsess : sessionOnBehaviors [c1, c2, c3]
      = SessionOutcome.fail (cleanSessionMsg (mkFailMsg
          (buildScript [c1.text, c2.text, c3.text]) c2.code
          (c1.err ++ c2.err))) := by
    rw [sessionOnBehaviors]
    show sessionRun (scriptShell [c1, c2, c3]) [c1.text, c2.text, c3.text] = _
    rw [sessionRun]
    rw [streamRun]
    have hlen3 : ([c1, c2, c3] : List CmdBehavior).length = 3 := rfl
    simp only [scriptShell, hlen3, hexec.2.1, hexec.2.2]
    rw [if_neg h2code]
    all_goals simp
  have hclean := cleanMsg_three c1.text c2.text c3.text (c1.err ++ c2.err)
    c2.code h1nl h1q h1u h1se h2nl h2q h2u h2se h3nl h3q h3u h3se hTL
  rw [hclean] at hsess
  have hL1nl : '\n' ∉ "Command failed (exit ".toList ++ natRepr c2.code
      ++ "): ".toList ++ c1.text := by
    intro hm
    rcases List.mem_append.mp hm with hm | hm
    · rcases List.mem_append.mp hm with hm | hm
      · rcases List.mem_append.mp hm with hm | hm
        · exact absurd hm (by decide)
        · exact absurd (natRepr_digits c2.code _ hm) (by decide)
      · exact absurd hm (by decide)
    · exact h1nl hm
  have hM : "Command failed (exit ".toList ++ (natRepr c2.code ++ ("): ".toList
          ++ (c1.text ++ '\n' :: (c2.text ++ '\n' :: (c3.text
              ++ '\n' :: lastN 500 (c1.err ++ c2.err))))))
      = ("Command failed (exit ".toList ++ natRepr c2.code ++ "): ".toList
           ++ c1.text)
        ++ '\n' :: (c2.text ++ '\n' :: (c3.text
              ++ '\n' :: lastN 500 (c1.err ++ c2.err))) := by
    simp [List.append_assoc]
  have hsplit : splitCh '\n'
      ("Command failed (exit ".toList ++ (natRepr c2.code ++ ("): ".toList
          ++ (c1.text ++ '\n' :: (c2.text ++ '\n' :: (c3.text
              ++ '\n' :: lastN 500 (c1.err ++ c2.err)))))))
      = ["Command failed (exit ".toList ++ natRepr c2.code ++ "): ".toList
           ++ c1.text, c2.text, c3.text, lastN 500 (c1.err ++ c2.err)] := by
    rw [hM, splitCh_line _ _ _ hL1nl, splitCh_line _ _ _ h2nl,
      splitCh_line _ _ _ h3nl, splitCh_no_sep _ _ hTL]
  refine ⟨hexec.1, ?_⟩
  refine ⟨_, hsess, hsplit, ?_⟩
  rw [hsplit]
  intro L hL
  simp only [List.mem_cons, List.not_mem_nil, or_false] at hL
  rcases hL with hL | hL | hL | hL
  · subst hL
    have hc : "Command failed (exit ".toList ++ natRepr c2.code
        ++ "): ".toList ++ c1.text
        = 'C' :: ("ommand failed (exit ".toList ++ natRepr c2.code
            ++ "): ".toList ++ c1.text) := by
      simp
    rw [hc]
    exact headerLine_clean _
  · subst hL
    exact plainLine_clean c2.text h2q h2u (endsB_false_ne h2se)
  · subst hL
    exact plainLine_clean c3.text h3q h3u (endsB_false_ne h3se)
  · subst hL
    exact plainLine_clean _ hT2 hT1 hT0

set_option maxRecDepth 8000 in
theorem session_three_witness :
    (execSteps 3 1 [wEnvA, wEnvB, wEnvC]).1 = [wEnvA.text, wEnvB.text]
    ∧ ∃ msg : List Char,
        sessionOnBehaviors [wEnvA, wEnvB, wEnvC] = SessionOutcome.fail msg
        ∧ splitCh '\n' msg
            = ["Command failed (exit ".toList ++ natRepr wEnvB.code
                 ++ "): ".toList ++ wEnvA.text,
               wEnvB.text, wEnvC.text, lastN 500 (wEnvA.err ++ wEnvB.err)]
        ∧ ∀ L ∈ splitCh '\n' msg,
            L ≠ "set -e".toList
            ∧ startsB L "_envready_step=".toList = false
            ∧ startsB L "echo '".toList = false :=
  session_three wEnvA wEnvB wEnvC (by decide) (by decide) (by decide)
    (by decide) (by decide) (by decide) (by decide) (by decide) (by decide)
    (by decide) (by decide) (by decide) (by decide) (by decide) (by decide)
    (by decide) (by decide) (by decide) (by decide)

end Envready
